import Mathlib

/-!
Verification of the catalog diff-and-merge engine of the `ai-translator`
repository (sources: `src/diff.ts`, `src/file-processor.ts`, `src/translate.ts`,
`src/ai.ts`).

Catalogs are JSON documents.  We embed parsed JSON values as an inductive type;
a JavaScript object is an ordered association list of string keys and values
(JavaScript preserves insertion order of string keys, and parsed JSON objects
never contain duplicate keys or `undefined`).  `JSON.stringify` equality of two
parsed values coincides with structural equality of this embedding, and numbers
are embedded as integers (catalog values are texts; no claim depends on float
formatting).
-/

namespace AITranslator

/-- A parsed JSON value (`JSONValue` in `src/diff.ts`). -/
inductive JSONValue where
  | str (s : String)
  | num (n : Int)
  | bool (b : Bool)
  | null
  | arr (elems : List JSONValue)
  | obj (entries : List (String × JSONValue))

/-- A parsed JSON object (`JSONObject` in `src/diff.ts`): an ordered
association list of string keys. -/
abbrev JSONObject := List (String × JSONValue)

mutual

/-- Structural equality test for JSON values (`JSON.stringify(a) ===
JSON.stringify(b)` on parsed values). -/
def beqVal : JSONValue → JSONValue → Bool
  | .str a, .str b => a = b
  | .num a, .num b => a = b
  | .bool a, .bool b => a = b
  | .null, .null => true
  | .arr a, .arr b => beqValList a b
  | .obj a, .obj b => beqValEntries a b
  | _, _ => false

/-- Elementwise equality of JSON arrays. -/
def beqValList : List JSONValue → List JSONValue → Bool
  | [], [] => true
  | x :: xs, y :: ys => beqVal x y && beqValList xs ys
  | _, _ => false

/-- Entrywise equality of JSON objects. -/
def beqValEntries : List (String × JSONValue) → List (String × JSONValue) → Bool
  | [], [] => true
  | p :: ps, q :: qs => (p.1 = q.1 : Bool) && beqVal p.2 q.2 && beqValEntries ps qs
  | _, _ => false

end

mutual

theorem beqVal_iff : ∀ a b : JSONValue, beqVal a b = true ↔ a = b
  | .str _, b => by cases b <;> simp [beqVal]
  | .num _, b => by cases b <;> simp [beqVal]
  | .bool _, b => by cases b <;> simp [beqVal]
  | .null, b => by cases b <;> simp [beqVal]
  | .arr a, b => by
    cases b <;> simp [beqVal]
    exact beqValList_iff a _
  | .obj a, b => by
    cases b <;> simp [beqVal]
    exact beqValEntries_iff a _

theorem beqValList_iff : ∀ a b : List JSONValue, beqValList a b = true ↔ a = b
  | [], [] => by simp [beqValList]
  | [], _ :: _ => by simp [beqValList]
  | _ :: _, [] => by simp [beqValList]
  | x :: xs, y :: ys => by
    simp [beqValList, beqVal_iff x y, beqValList_iff xs ys]

theorem beqValEntries_iff :
    ∀ a b : List (String × JSONValue), beqValEntries a b = true ↔ a = b
  | [], [] => by simp [beqValEntries]
  | [], _ :: _ => by simp [beqValEntries]
  | _ :: _, [] => by simp [beqValEntries]
  | p :: ps, q :: qs => by
    simp [beqValEntries, beqVal_iff p.2 q.2, beqValEntries_iff ps qs,
      Prod.ext_iff, and_assoc]

end

instance : DecidableEq JSONValue :=
  fun a b => decidable_of_iff (beqVal a b = true) (beqVal_iff a b)

/-- The keys of an association list, in order (`Object.keys`). -/
def akeys {α : Type} (l : List (String × α)) : List String :=
  l.map Prod.fst

@[simp] theorem akeys_nil {α : Type} : akeys ([] : List (String × α)) = [] := rfl

@[simp] theorem akeys_cons {α : Type} (e : String × α) (l : List (String × α)) :
    akeys (e :: l) = e.1 :: akeys l := rfl

theorem akeys_append {α : Type} (l r : List (String × α)) :
    akeys (l ++ r) = akeys l ++ akeys r := by
  simp [akeys]

/-- First-match lookup in an association list (`obj[key]` on a JavaScript
object, which cannot contain duplicate keys). -/
def alook {α : Type} : List (String × α) → String → Option α
  | [], _ => none
  | e :: rest, k => if e.1 = k then some e.2 else alook rest k

/-- Property write on a JavaScript object (`obj[key] = value`): replaces the
value in place if the key is present, otherwise appends the key at the end
(JavaScript insertion-order semantics). -/
def aset {α : Type} : List (String × α) → String → α → List (String × α)
  | [], k, v => [(k, v)]
  | e :: rest, k, v => if e.1 = k then (k, v) :: rest else e :: aset rest k v

/-- Property removal on a JavaScript object (`delete obj[key]`).  JSON objects
have unique keys, so deleting the key is filtering it out. -/
def aerase {α : Type} (l : List (String × α)) (k : String) : List (String × α) :=
  l.filter (fun e => e.1 != k)

/-- `typeof v === 'object' && v !== null` in JavaScript: objects and arrays
qualify, `null` and scalars do not. -/
def isObjLike : JSONValue → Bool
  | .obj _ => true
  | .arr _ => true
  | _ => false

/-- JavaScript falsiness of a JSON value (`!v`): empty string, zero, `false`
and `null` are falsy; objects and arrays are always truthy. -/
def isFalsy : JSONValue → Bool
  | .str s => s.isEmpty
  | .num n => n = 0
  | .bool b => !b
  | .null => true
  | .arr _ => false
  | .obj _ => false

/-! ### Basic association-list lemmas -/

theorem alook_isSome_iff_mem {α : Type} (l : List (String × α)) (k : String) :
    (alook l k).isSome = true ↔ k ∈ akeys l := by
  induction l with
  | nil => simp [alook]
  | cons e rest ih =>
    by_cases h : e.1 = k
    · simp [alook, h]
    · simp only [alook, if_neg h, akeys_cons, List.mem_cons, ih]
      constructor
      · exact fun hm => Or.inr hm
      · rintro (hk | hm)
        · exact absurd hk.symm h
        · exact hm

theorem alook_eq_none_iff_not_mem {α : Type} (l : List (String × α)) (k : String) :
    alook l k = none ↔ k ∉ akeys l := by
  rw [← alook_isSome_iff_mem]
  cases alook l k <;> simp

theorem alook_mem {α : Type} {l : List (String × α)} {k : String} {v : α}
    (h : alook l k = some v) : (k, v) ∈ l := by
  induction l with
  | nil => simp [alook] at h
  | cons e rest ih =>
    obtain ⟨ek, ev⟩ := e
    by_cases he : ek = k
    · simp only [alook, if_pos he] at h
      cases h
      simp [he]
    · simp only [alook, if_neg he] at h
      exact List.mem_cons_of_mem _ (ih h)

theorem mem_alook_of_nodup {α : Type} {l : List (String × α)} {k : String} {v : α}
    (hnd : (akeys l).Nodup) (h : (k, v) ∈ l) : alook l k = some v := by
  induction l with
  | nil => simp at h
  | cons e rest ih =>
    obtain ⟨ek, ev⟩ := e
    simp only [akeys_cons, List.nodup_cons] at hnd
    rcases List.mem_cons.mp h with he | hrest
    · cases he
      simp [alook]
    · have hk : ek ≠ k := by
        intro hek
        exact hnd.1 (hek ▸ List.mem_map_of_mem Prod.fst hrest)
      rw [alook, if_neg hk]
      exact ih hnd.2 hrest

theorem alook_append {α : Type} (l r : List (String × α)) (k : String) :
    alook (l ++ r) k = match alook l k with
      | some v => some v
      | none => alook r k := by
  induction l with
  | nil => simp [alook]
  | cons e rest ih =>
    by_cases h : e.1 = k
    · simp [alook, h]
    · simp [alook, h, ih]

theorem alook_aset_self {α : Type} (l : List (String × α)) (k : String) (v : α) :
    alook (aset l k v) k = some v := by
  induction l with
  | nil => simp [aset, alook]
  | cons e rest ih =>
    by_cases h : e.1 = k
    · simp [aset, h, alook]
    · simp [aset, h, alook, ih]

theorem alook_aset_ne {α : Type} (l : List (String × α)) (k k' : String) (v : α)
    (h : k ≠ k') : alook (aset l k v) k' = alook l k' := by
  induction l with
  | nil => simp [aset, alook, h]
  | cons e rest ih =>
    by_cases he : e.1 = k
    · simp [aset, he, alook, h]
    · simp [aset, he, alook, ih]

theorem aset_of_not_mem {α : Type} {l : List (String × α)} {k : String} (v : α)
    (h : k ∉ akeys l) : aset l k v = l ++ [(k, v)] := by
  induction l with
  | nil => simp [aset]
  | cons e rest ih =>
    simp only [akeys_cons, List.mem_cons] at h
    push_neg at h
    rw [aset, if_neg (fun he => h.1 he.symm), ih h.2]
    simp

theorem aset_self_of_alook {α : Type} {l : List (String × α)} {k : String} {v : α}
    (h : alook l k = some v) : aset l k v = l := by
  induction l with
  | nil => simp [alook] at h
  | cons e rest ih =>
    obtain ⟨ek, ev⟩ := e
    by_cases he : ek = k
    · simp only [alook, if_pos he] at h
      cases h
      simp [aset, he]
    · simp only [alook, if_neg he] at h
      simp [aset, he, ih h]

theorem aset_aset {α : Type} (l : List (String × α)) (k : String) (v w : α) :
    aset (aset l k v) k w = aset l k w := by
  induction l with
  | nil => simp [aset]
  | cons e rest ih =>
    by_cases h : e.1 = k
    · simp [aset, h]
    · simp [aset, h, ih]

theorem aerase_not_mem {α : Type} (l : List (String × α)) (k : String) :
    k ∉ akeys (aerase l k) := by
  intro hm
  rw [akeys] at hm
  obtain ⟨e, he, hk⟩ := List.mem_map.mp hm
  rw [aerase] at he
  obtain ⟨_, hne⟩ := List.mem_filter.mp he
  simp at hne
  exact hne hk

theorem aerase_of_not_mem {α : Type} {l : List (String × α)} {k : String}
    (h : k ∉ akeys l) : aerase l k = l := by
  induction l with
  | nil => rfl
  | cons e rest ih =>
    simp only [akeys_cons, List.mem_cons] at h
    push_neg at h
    rw [aerase, List.filter_cons]
    have : (e.1 != k) = true := by
      simp
      exact fun he => h.1 he.symm
    rw [if_pos this]
    rw [aerase] at ih
    rw [ih h.2]

/-! ### Differ (`src/diff.ts`) -/

/-- Result of the shallow diff (`DiffResult` in `src/diff.ts`). -/
structure DiffResult where
  missing : List String
  added : List String
  changed : List String
deriving DecidableEq

/-- Shallow top-level diff of two catalogs (`diff` in `src/diff.ts`).  The
first loop over `oldObj` pushes each key either to `missing` (absent from
`newObj`) or to `changed` (present in both with a different serialized value);
the second loop over `newObj` pushes keys absent from `oldObj` to `added`.
The loops are rendered as filters over the ordered key lists, which build the
same three lists in the same order. -/
def diff (oldObj newObj : JSONObject) : DiffResult :=
  { missing := (akeys oldObj).filter (fun k => !(akeys newObj).contains k)
  , added := (akeys newObj).filter (fun k => !(akeys oldObj).contains k)
  , changed := (akeys oldObj).filter (fun k =>
      (akeys newObj).contains k && decide (alook oldObj k ≠ alook newObj k)) }

/-- A key is implicitly unchanged when it is present in both catalogs with the
same serialized value. -/
def unchangedKey (B C : JSONObject) (k : String) : Prop :=
  k ∈ akeys B ∧ k ∈ akeys C ∧ alook B k = alook C k

/-- Exactly one of four alternatives holds. -/
def ExactlyOneOfFour (p q r s : Prop) : Prop :=
  (p ∨ q ∨ r ∨ s) ∧ ¬(p ∧ q) ∧ ¬(p ∧ r) ∧ ¬(p ∧ s) ∧ ¬(q ∧ r) ∧ ¬(q ∧ s) ∧ ¬(r ∧ s)

theorem mem_diff_added (B C : JSONObject) (k : String) :
    k ∈ (diff B C).added ↔ k ∈ akeys C ∧ k ∉ akeys B := by
  simp [diff, List.mem_filter]

theorem mem_diff_missing (B C : JSONObject) (k : String) :
    k ∈ (diff B C).missing ↔ k ∈ akeys B ∧ k ∉ akeys C := by
  simp [diff, List.mem_filter]

theorem mem_diff_changed (B C : JSONObject) (k : String) :
    k ∈ (diff B C).changed ↔
      k ∈ akeys B ∧ k ∈ akeys C ∧ alook B k ≠ alook C k := by
  simp [diff, List.mem_filter, and_assoc]

theorem diff_nil_baseline (C : JSONObject) :
    diff [] C = { missing := [], added := akeys C, changed := [] } := by
  simp [diff]

/-- C1: for every baseline `B` and current `C`, `diff B C` classifies every
top-level key of `B ∪ C` into exactly one of added / changed / missing /
implicitly-unchanged: `added` is exactly `keys C − keys B`, `missing` exactly
`keys B − keys C`, `changed` exactly the common keys whose serialized values
differ; the three lists are pairwise disjoint; and with an empty baseline every
current key is added and nothing is changed or missing. -/
theorem diff_classifies_every_key (B C : JSONObject) :
    (∀ k, k ∈ (diff B C).added ↔ k ∈ akeys C ∧ k ∉ akeys B) ∧
    (∀ k, k ∈ (diff B C).missing ↔ k ∈ akeys B ∧ k ∉ akeys C) ∧
    (∀ k, k ∈ (diff B C).changed ↔
      k ∈ akeys B ∧ k ∈ akeys C ∧ alook B k ≠ alook C k) ∧
    (∀ k, k ∈ akeys B ∨ k ∈ akeys C →
      ExactlyOneOfFour (k ∈ (diff B C).added) (k ∈ (diff B C).changed)
        (k ∈ (diff B C).missing) (unchangedKey B C k)) ∧
    diff [] C = { missing := [], added := akeys C, changed := [] } := by
  refine ⟨mem_diff_added B C, mem_diff_missing B C, mem_diff_changed B C,
    ?_, diff_nil_baseline C⟩
  intro k hk
  rw [ExactlyOneOfFour]
  rw [mem_diff_added, mem_diff_missing, mem_diff_changed, unchangedKey]
  by_cases hB : k ∈ akeys B <;> by_cases hC : k ∈ akeys C <;>
    by_cases hv : alook B k = alook C k <;> tauto

/-- Witness for C1 at concrete catalogs: with baseline `{a:"1"}` and current
`{a:"1", x:"2"}`, the key `x` is classified as added. -/
theorem diff_classifies_every_key_witness :
    "x" ∈ (diff [("a", .str "1")] [("a", .str "1"), ("x", .str "2")]).added :=
  ((diff_classifies_every_key [("a", .str "1")]
      [("a", .str "1"), ("x", .str "2")]).1 "x").mpr (by decide)

/-! ### Grouper and Merge Engine (`src/file-processor.ts`) -/

/-- The scalar branch of the grouping loops: `if (!grouped.default)
grouped.default = {}; grouped.default[key] = value`.  The `default` entry is
only ever created as an object; if a top-level key named `default` held an
array, the JavaScript property write on that array would be invisible to JSON
serialization, so it is dropped here. -/
def defaultInsert (acc : JSONObject) (k : String) (v : JSONValue) : JSONObject :=
  match alook acc "default" with
  | some (.obj d) => aset acc "default" (.obj (aset d k v))
  | some _ => acc
  | none => aset acc "default" (.obj [(k, v)])

/-- One iteration of the grouping loop: an object-like value becomes its own
group under its key, a scalar is inserted into the `default` group. -/
def groupStep (acc : JSONObject) (e : String × JSONValue) : JSONObject :=
  if isObjLike e.2 then aset acc e.1 e.2
  else defaultInsert acc e.1 e.2

/-- Grouping of a catalog's top-level entries: each object-like value becomes
its own group under its key, every scalar is collected into the synthetic
`default` group.  This is the shared loop body of `groupEnContent` and
`groupExistingContent` in `src/file-processor.ts` (both read a file and then
run exactly this loop over its entries). -/
def groupContent (enData : JSONObject) : JSONObject :=
  enData.foldl groupStep []

/-- One iteration of the reassembly loop of `mergeGroupedContent`: the
`default` group's entries are copied to the top level (`Object.assign`), any
other group is reattached under its own name.  `Object.assign` with a
non-object source copies no relevant keys. -/
def mergeStep (acc : JSONObject) (g : String × JSONValue) : JSONObject :=
  if g.1 = "default" then
    match g.2 with
    | .obj entries => entries.foldl (fun a e => aset a e.1 e.2) acc
    | _ => acc
  else aset acc g.1 g.2

/-- Reassembly of grouped content (`mergeGroupedContent` in
`src/file-processor.ts`). -/
def mergeGroupedContent (groupedContent : JSONObject) : JSONObject :=
  groupedContent.foldl mergeStep []

/-- `Object.keys` of a JSON value: entry keys of an object, index strings of an
array or a string, nothing for other primitives. -/
def objKeys : JSONValue → List String
  | .obj l => akeys l
  | .arr a => (List.range a.length).map toString
  | .str s => (List.range s.length).map toString
  | _ => []

/-- `Object.assign(target, source)` for the key-wise merge branch of
`updateLanguageFile`: every entry of the source object is written into the
target object.  A non-object source contributes no relevant keys, and the
target there is always an existing group object. -/
def objAssign (target source : JSONValue) : JSONValue :=
  match target, source with
  | .obj t, .obj s => .obj (s.foldl (fun a e => aset a e.1 e.2) t)
  | t, _ => t

/-- The structural-change test of `updateLanguageFile`: the key sets of the
existing and the incoming group differ in size or membership. -/
def structurallyChanged (existingGroup newGroup : JSONValue) : Bool :=
  let existingKeys := objKeys existingGroup
  let newKeys := objKeys newGroup
  existingKeys.length != newKeys.length ||
    !(existingKeys.all (fun k => newKeys.contains k))

/-- The merge loop of `updateLanguageFile` in `src/file-processor.ts`: each
incoming group is created verbatim when absent, replaces the existing group
entirely when the key sets differ, and is merged key-wise otherwise.  Group
values are non-null objects, hence truthy, so the `!existing[groupName]` test
is exactly key absence. -/
def updateStep (acc : JSONObject) (g : String × JSONValue) : JSONObject :=
  match alook acc g.1 with
  | none => aset acc g.1 g.2
  | some old =>
    if structurallyChanged old g.2 then aset acc g.1 g.2
    else aset acc g.1 (objAssign old g.2)

/-- The merge loop of `updateLanguageFile`, folded over the incoming groups. -/
def updateGroups (existing newGroups : JSONObject) : JSONObject :=
  newGroups.foldl updateStep existing

/-- The pure content of `updateLanguageFile` in `src/file-processor.ts`: the
existing catalog is regrouped (`groupExistingContent`), the incoming groups
are merged into it, and the result is reassembled (`mergeGroupedContent`).
File reading and writing around this pipeline are omitted. -/
def updateLanguageContent (existingData newGroupedContent : JSONObject) : JSONObject :=
  mergeGroupedContent (updateGroups (groupContent existingData) newGroupedContent)

/-- Entries of a catalog holding scalar (non-object-like) values. -/
def scalarEntries (c : JSONObject) : JSONObject :=
  c.filter (fun e => !isObjLike e.2)

/-- Entries of a catalog holding object-like values. -/
def objEntries (c : JSONObject) : JSONObject :=
  c.filter (fun e => isObjLike e.2)

/-- Whether the catalog stores an object-like value under the literal key
`default` (which collides with the synthetic `default` group). -/
def objLikeDefault (c : JSONObject) : Bool :=
  match alook c "default" with
  | some v => isObjLike v
  | none => false

/-- A value is a flat object: an object none of whose values is object-like. -/
def flatObj : JSONValue → Bool
  | .obj l => l.all (fun se => !isObjLike se.2)
  | _ => false

/-- A catalog with at most one level of nesting: every top-level value is
either a scalar or a flat object. -/
def nestingLE1 (c : JSONObject) : Bool :=
  c.all (fun e => !isObjLike e.2 || flatObj e.2)

/-- Grouped content flattened back to catalog entries: the `default` group
contributes its entries, every other group contributes itself.  (Proof-side
normal form of `mergeGroupedContent`.) -/
def flattenG : JSONObject → JSONObject
  | [] => []
  | g :: rest =>
    (if g.1 = "default" then
      match g.2 with
      | .obj entries => entries
      | _ => []
    else [g]) ++ flattenG rest

/-! ### Structure of the grouping and reassembly loops -/

theorem flattenG_append (a b : JSONObject) :
    flattenG (a ++ b) = flattenG a ++ flattenG b := by
  induction a with
  | nil => rfl
  | cons g rest ih => simp [flattenG, ih]

theorem flattenG_of_no_default {g : JSONObject}
    (h : ∀ e ∈ g, e.1 ≠ "default") : flattenG g = g := by
  induction g with
  | nil => rfl
  | cons e rest ih =>
    rw [flattenG, if_neg (h e (List.mem_cons_self e rest))]
    rw [ih (fun x hx => h x (List.mem_cons_of_mem e hx))]
    simp

theorem mem_flattenG {g : JSONObject} {e : String × JSONValue}
    (hm : e ∈ g) (hk : e.1 ≠ "default") : e ∈ flattenG g := by
  induction g with
  | nil => simp at hm
  | cons x rest ih =>
    rcases List.mem_cons.mp hm with he | hrest
    · subst he
      rw [flattenG, if_neg hk]
      simp
    · rw [flattenG]
      exact List.mem_append_right _ (ih hrest)

theorem foldl_aset_eq_append {entries acc : JSONObject}
    (hfresh : ∀ k ∈ akeys entries, k ∉ akeys acc)
    (hnd : (akeys entries).Nodup) :
    entries.foldl (fun a e => aset a e.1 e.2) acc = acc ++ entries := by
  induction entries generalizing acc with
  | nil => simp
  | cons e rest ih =>
    simp only [List.foldl_cons]
    simp only [akeys_cons, List.nodup_cons] at hnd
    have h1 : e.1 ∉ akeys acc := hfresh e.1 (by simp)
    rw [aset_of_not_mem e.2 h1]
    have hfresh' : ∀ k ∈ akeys rest, k ∉ akeys (acc ++ [(e.1, e.2)]) := by
      intro k hk
      rw [akeys_append]
      simp only [List.mem_append]
      push_neg
      refine ⟨hfresh k (by simp [hk]), ?_⟩
      simp only [akeys_cons, akeys_nil]
      simp only [List.mem_singleton]
      intro hke
      exact hnd.1 (hke ▸ hk)
    rw [ih hfresh' hnd.2]
    simp

/-- Whether a JSON value is built with the object constructor. -/
def isObjCtor : JSONValue → Bool
  | .obj _ => true
  | _ => false

theorem exists_obj_of_isObjCtor {v : JSONValue} (h : isObjCtor v = true) :
    ∃ entries, v = .obj entries := by
  cases v <;> simp [isObjCtor] at h ⊢

theorem flattenG_cons_default_obj (entries : List (String × JSONValue))
    (rest : JSONObject) :
    flattenG (("default", .obj entries) :: rest) = entries ++ flattenG rest := by
  rw [flattenG]
  simp

theorem flattenG_cons_default_nonobj {v : JSONValue} (rest : JSONObject)
    (h : isObjCtor v = false) :
    flattenG (("default", v) :: rest) = flattenG rest := by
  cases v <;> simp [flattenG] <;> simp [isObjCtor] at h

theorem flattenG_cons_ne {g : String × JSONValue} (rest : JSONObject)
    (h : g.1 ≠ "default") : flattenG (g :: rest) = g :: flattenG rest := by
  rw [flattenG, if_neg h]
  simp

theorem mergeStep_default_obj (acc : JSONObject)
    (entries : List (String × JSONValue)) :
    mergeStep acc ("default", .obj entries) =
      entries.foldl (fun a e => aset a e.1 e.2) acc := by
  rw [mergeStep]
  simp

theorem mergeStep_default_nonobj (acc : JSONObject) {v : JSONValue}
    (h : isObjCtor v = false) : mergeStep acc ("default", v) = acc := by
  cases v <;> simp [mergeStep] <;> simp [isObjCtor] at h

theorem mergeStep_ne (acc : JSONObject) {g : String × JSONValue}
    (h : g.1 ≠ "default") : mergeStep acc g = aset acc g.1 g.2 := by
  rw [mergeStep, if_neg h]

theorem foldl_mergeStep_eq_append {g acc : JSONObject}
    (hfresh : ∀ k ∈ akeys (flattenG g), k ∉ akeys acc)
    (hnd : (akeys (flattenG g)).Nodup) :
    g.foldl mergeStep acc = acc ++ flattenG g := by
  induction g generalizing acc with
  | nil => simp [flattenG]
  | cons x rest ih =>
    obtain ⟨x1, x2⟩ := x
    simp only [List.foldl_cons]
    by_cases hd : x1 = "default"
    · subst hd
      by_cases ho : isObjCtor x2 = true
      · obtain ⟨entries, rfl⟩ := exists_obj_of_isObjCtor ho
        rw [flattenG_cons_default_obj] at hfresh hnd
        rw [mergeStep_default_obj]
        rw [akeys_append] at hfresh hnd
        rw [List.nodup_append] at hnd
        have hent : entries.foldl (fun a e => aset a e.1 e.2) acc = acc ++ entries :=
          foldl_aset_eq_append (fun k hk => hfresh k (List.mem_append_left _ hk)) hnd.1
        rw [hent]
        have hfresh' : ∀ k ∈ akeys (flattenG rest), k ∉ akeys (acc ++ entries) := by
          intro k hk
          rw [akeys_append, List.mem_append]
          push_neg
          exact ⟨hfresh k (List.mem_append_right _ hk), fun hke => hnd.2.2 hke hk⟩
        rw [ih hfresh' hnd.2.1, flattenG_cons_default_obj]
        simp
      · rw [Bool.not_eq_true] at ho
        rw [flattenG_cons_default_nonobj rest ho] at hfresh hnd ⊢
        rw [mergeStep_default_nonobj acc ho]
        exact ih hfresh hnd
    · rw [mergeStep_ne acc hd, flattenG_cons_ne rest hd] at *
      simp only [akeys_cons, List.nodup_cons] at hnd
      have h1 : x1 ∉ akeys acc := hfresh x1 (by simp)
      rw [aset_of_not_mem x2 h1]
      have hfresh' : ∀ k ∈ akeys (flattenG rest), k ∉ akeys (acc ++ [(x1, x2)]) := by
        intro k hk
        rw [akeys_append, List.mem_append]
        push_neg
        refine ⟨hfresh k (by simp [hk]), ?_⟩
        simp only [akeys_cons, akeys_nil, List.mem_singleton]
        intro hke
        exact hnd.1 (hke ▸ hk)
      rw [ih hfresh' hnd.2]
      simp

theorem mergeGroupedContent_eq_flattenG {g : JSONObject}
    (hnd : (akeys (flattenG g)).Nodup) :
    mergeGroupedContent g = flattenG g := by
  rw [mergeGroupedContent, foldl_mergeStep_eq_append (by simp) hnd]
  simp

theorem mem_akeys {α : Type} {l : List (String × α)} {k : String} :
    k ∈ akeys l ↔ ∃ v, (k, v) ∈ l := by
  constructor
  · intro hk
    obtain ⟨e, he, hke⟩ := List.mem_map.mp hk
    refine ⟨e.2, ?_⟩
    rw [← hke]
    exact Prod.mk.eta ▸ he
  · rintro ⟨v, hv⟩
    exact List.mem_map_of_mem Prod.fst hv

theorem akeys_filter_subset {α : Type} (P : String × α → Bool)
    {l : List (String × α)} {k : String} (h : k ∈ akeys (l.filter P)) :
    k ∈ akeys l := by
  obtain ⟨v, hv⟩ := mem_akeys.mp h
  exact mem_akeys.mpr ⟨v, List.mem_of_mem_filter hv⟩

theorem nodup_append_singleton {α : Type} {l : List (String × α)}
    {e : String × α} (h : (akeys (l ++ [e])).Nodup) :
    (akeys l).Nodup ∧ e.1 ∉ akeys l := by
  rw [akeys_append, List.nodup_append] at h
  exact ⟨h.1, fun hm => h.2.2 hm (by simp)⟩

theorem objLikeDefault_append_left {c e : JSONObject}
    (h : objLikeDefault (c ++ e) = false) : objLikeDefault c = false := by
  simp only [objLikeDefault, alook_append] at h ⊢
  cases hc : alook c "default" with
  | none => rfl
  | some v =>
    rw [hc] at h
    exact h

theorem default_key_not_objLike {c : JSONObject} (hnd : (akeys c).Nodup)
    (hdef : objLikeDefault c = false) {v : JSONValue}
    (hm : ("default", v) ∈ c) : isObjLike v = false := by
  have hl := mem_alook_of_nodup hnd hm
  simpa [objLikeDefault, hl] using hdef

theorem default_not_mem_of_objLike {c : JSONObject} (hnd : (akeys c).Nodup)
    (hall : ∀ x ∈ c, isObjLike x.2 = true) (hdef : objLikeDefault c = false) :
    "default" ∉ akeys c := by
  intro hm
  obtain ⟨v, hv⟩ := mem_akeys.mp hm
  have h1 := default_key_not_objLike hnd hdef hv
  have h2 := hall _ hv
  simp at h2
  rw [h2] at h1
  exact Bool.true_eq_false.mp h1

theorem aset_middle {α : Type} {p : List (String × α)} {k : String}
    (h : k ∉ akeys p) (x y : α) (r : List (String × α)) :
    aset (p ++ (k, x) :: r) k y = p ++ (k, y) :: r := by
  induction p with
  | nil => simp [aset]
  | cons e rest ih =>
    simp only [akeys_cons, List.mem_cons] at h
    push_neg at h
    simp only [List.cons_append, aset]
    rw [if_neg (fun he => h.1 he.symm)]
    simp only [List.append_eq]
    rw [ih h.2]

theorem alook_middle {α : Type} {p : List (String × α)} {k : String}
    (h : k ∉ akeys p) (x : α) (r : List (String × α)) :
    alook (p ++ (k, x) :: r) k = some x := by
  rw [alook_append, (alook_eq_none_iff_not_mem p k).mpr h]
  simp [alook]

theorem groupStep_obj {acc : JSONObject} {e : String × JSONValue}
    (h : isObjLike e.2 = true) : groupStep acc e = aset acc e.1 e.2 := by
  rw [groupStep, if_pos h]

theorem groupStep_scalar {acc : JSONObject} {e : String × JSONValue}
    (h : isObjLike e.2 = false) : groupStep acc e = defaultInsert acc e.1 e.2 := by
  rw [groupStep, if_neg (by simp [h])]

theorem defaultInsert_none {acc : JSONObject}
    (h : alook acc "default" = none) (k : String) (v : JSONValue) :
    defaultInsert acc k v = aset acc "default" (.obj [(k, v)]) := by
  simp only [defaultInsert, h]

theorem defaultInsert_obj {acc : JSONObject} {d : List (String × JSONValue)}
    (h : alook acc "default" = some (.obj d)) (k : String) (v : JSONValue) :
    defaultInsert acc k v = aset acc "default" (.obj (aset d k v)) := by
  simp only [defaultInsert, h]

theorem groupContent_append_singleton (c : JSONObject) (e : String × JSONValue) :
    groupContent (c ++ [e]) = groupStep (groupContent c) e := by
  rw [groupContent, groupContent, List.foldl_append]
  simp

theorem scalarEntries_append (a b : JSONObject) :
    scalarEntries (a ++ b) = scalarEntries a ++ scalarEntries b := by
  simp [scalarEntries]

theorem objEntries_append (a b : JSONObject) :
    objEntries (a ++ b) = objEntries a ++ objEntries b := by
  simp [objEntries]

/-- Structure of the grouping loop: on a catalog with unique keys whose
`default` key (if any) is scalar, grouping leaves an all-object catalog
unchanged, and otherwise splits the catalog at its first scalar entry,
collecting all scalars into a `default` group placed at that position,
followed by the remaining object entries. -/
theorem groupContent_shape (c : JSONObject) (hnd : (akeys c).Nodup)
    (hdef : objLikeDefault c = false) :
    (scalarEntries c = [] ∧ groupContent c = c) ∨
    (∃ p s q, c = p ++ s :: q ∧ (∀ x ∈ p, isObjLike x.2 = true) ∧
      isObjLike s.2 = false ∧
      groupContent c =
        p ++ ("default", .obj (s :: scalarEntries q)) :: objEntries q) := by
  induction c using List.reverseRecOn with
  | nil => left; simp [scalarEntries, groupContent]
  | append_singleton c e ih =>
    obtain ⟨hnd', hfresh⟩ := nodup_append_singleton hnd
    have hdef' := objLikeDefault_append_left hdef
    rcases ih hnd' hdef' with ⟨hsc, hgc⟩ | ⟨p, s, q, hc, hp, hs, hgc⟩
    · -- all previous entries are object-like
      have hall : ∀ x ∈ c, isObjLike x.2 = true := by
        intro x hx
        by_contra hobj
        have : x ∈ scalarEntries c := by
          rw [scalarEntries, List.mem_filter]
          refine ⟨hx, ?_⟩
          simp only [Bool.not_eq_true] at hobj
          simp [hobj]
        rw [hsc] at this
        simp at this
      by_cases he : isObjLike e.2 = true
      · left
        constructor
        · rw [scalarEntries_append, hsc]
          simp [scalarEntries, he]
        · rw [groupContent_append_singleton, groupStep_obj he, hgc,
            aset_of_not_mem e.2 hfresh]
      · right
        rw [Bool.not_eq_true] at he
        have hdnm : "default" ∉ akeys c :=
          default_not_mem_of_objLike hnd' hall hdef'
        refine ⟨c, e, [], by simp, hall, he, ?_⟩
        rw [groupContent_append_singleton, groupStep_scalar he, hgc,
          defaultInsert_none ((alook_eq_none_iff_not_mem c "default").mpr hdnm),
          aset_of_not_mem _ hdnm]
        simp [scalarEntries, objEntries]
    · -- c already splits as p ++ s :: q
      have hdnp : "default" ∉ akeys p := by
        intro hm
        obtain ⟨v, hv⟩ := mem_akeys.mp hm
        have h1 : ("default", v) ∈ c := by
          rw [hc]
          exact List.mem_append_left _ hv
        have h2 := default_key_not_objLike hnd' hdef' h1
        have h3 := hp _ hv
        simp only [h3] at h2
        exact Bool.true_eq_false.mp h2
      by_cases he : isObjLike e.2 = true
      · right
        refine ⟨p, s, q ++ [e], by rw [hc]; simp, hp, hs, ?_⟩
        rw [groupContent_append_singleton, groupStep_obj he, hgc]
        have hkeys : e.1 ∉ akeys (p ++ ("default", JSONValue.obj
            (s :: scalarEntries q)) :: objEntries q) := by
          rw [akeys_append]
          simp only [List.mem_append, akeys_cons, List.mem_cons]
          push_neg
          have hep : e.1 ∉ akeys p := by
            intro hm
            exact hfresh (by rw [hc, akeys_append]; exact List.mem_append_left _ hm)
          have hed : e.1 ≠ "default" := by
            intro hed
            have hnone : alook c "default" = none :=
              (alook_eq_none_iff_not_mem c "default").mpr (hed ▸ hfresh)
            have : objLikeDefault (c ++ [e]) = true := by
              simp only [objLikeDefault, alook_append, hnone]
              simp [alook, hed, he]
            rw [hdef] at this
            exact Bool.false_ne_true this
          have heq : e.1 ∉ akeys (objEntries q) := by
            intro hm
            have := akeys_filter_subset _ hm
            exact hfresh (by rw [hc, akeys_append]; simp [this])
          exact ⟨hep, hed, heq⟩
        rw [aset_of_not_mem e.2 hkeys]
        rw [scalarEntries_append, objEntries_append]
        simp [scalarEntries, objEntries, he]
      · right
        rw [Bool.not_eq_true] at he
        refine ⟨p, s, q ++ [e], by rw [hc]; simp, hp, hs, ?_⟩
        rw [groupContent_append_singleton, groupStep_scalar he, hgc]
        have hlk : alook (p ++ ("default", JSONValue.obj
            (s :: scalarEntries q)) :: objEntries q) "default" =
            some (.obj (s :: scalarEntries q)) := alook_middle hdnp _ _
        rw [defaultInsert_obj hlk]
        have hin : e.1 ∉ akeys (s :: scalarEntries q) := by
          simp only [akeys_cons, List.mem_cons]
          push_neg
          constructor
          · intro hm
            apply hfresh
            rw [hc, akeys_append, hm]
            simp
          · intro hm
            apply hfresh
            rw [hc, akeys_append]
            have := akeys_filter_subset _ hm
            simp [this]
        rw [aset_of_not_mem _ hin, aset_middle hdnp]
        rw [scalarEntries_append, objEntries_append]
        simp [scalarEntries, objEntries, he]

theorem scalarEntries_cons_obj {e : String × JSONValue} {rest : JSONObject}
    (h : isObjLike e.2 = true) : scalarEntries (e :: rest) = scalarEntries rest := by
  simp [scalarEntries, List.filter_cons, h]

theorem scalarEntries_cons_scalar {e : String × JSONValue} {rest : JSONObject}
    (h : isObjLike e.2 = false) :
    scalarEntries (e :: rest) = e :: scalarEntries rest := by
  simp [scalarEntries, List.filter_cons, h]

theorem objEntries_cons_obj {e : String × JSONValue} {rest : JSONObject}
    (h : isObjLike e.2 = true) : objEntries (e :: rest) = e :: objEntries rest := by
  simp [objEntries, List.filter_cons, h]

theorem objEntries_cons_scalar {e : String × JSONValue} {rest : JSONObject}
    (h : isObjLike e.2 = false) : objEntries (e :: rest) = objEntries rest := by
  simp [objEntries, List.filter_cons, h]

theorem scalar_obj_partition_perm (l : JSONObject) :
    (scalarEntries l ++ objEntries l).Perm l := by
  induction l with
  | nil => simp [scalarEntries, objEntries]
  | cons e rest ih =>
    by_cases he : isObjLike e.2 = true
    · rw [scalarEntries_cons_obj he, objEntries_cons_obj he]
      exact List.perm_middle.trans (ih.cons e)
    · rw [Bool.not_eq_true] at he
      rw [scalarEntries_cons_scalar he, objEntries_cons_scalar he, List.cons_append]
      exact ih.cons e

theorem alook_scalar_obj_partition (l : JSONObject) (hnd : (akeys l).Nodup)
    (k : String) :
    alook (scalarEntries l ++ objEntries l) k = alook l k := by
  induction l with
  | nil => simp [scalarEntries, objEntries]
  | cons e rest ih =>
    simp only [akeys_cons, List.nodup_cons] at hnd
    by_cases he : isObjLike e.2 = true
    · rw [scalarEntries_cons_obj he, objEntries_cons_obj he]
      by_cases hk : e.1 = k
      · subst hk
        have h1 : alook (scalarEntries rest) e.1 = none :=
          (alook_eq_none_iff_not_mem _ _).mpr
            (fun hm => hnd.1 (akeys_filter_subset _ hm))
        rw [alook_append, h1]
        simp [alook]
      · rw [alook_append]
        have ih' := ih hnd.2
        rw [alook_append] at ih'
        simp only [alook, if_neg hk]
        exact ih'
    · rw [Bool.not_eq_true] at he
      rw [scalarEntries_cons_scalar he, objEntries_cons_scalar he, List.cons_append]
      by_cases hk : e.1 = k
      · simp [alook, hk]
      · simp only [alook, if_neg hk]
        exact ih hnd.2

/-- Round-trip of grouping and reassembly: for a catalog with unique keys and
no object-like value under the literal key `default`, merging the grouped
content is a permutation of the original catalog that agrees with it on every
key lookup. -/
theorem roundTrip_perm_alook (c : JSONObject) (hnd : (akeys c).Nodup)
    (hdef : objLikeDefault c = false) :
    (mergeGroupedContent (groupContent c)).Perm c ∧
    ∀ k, alook (mergeGroupedContent (groupContent c)) k = alook c k := by
  rcases groupContent_shape c hnd hdef with ⟨hsc, hgc⟩ | ⟨p, s, q, hc, hp, hs, hgc⟩
  · have hall : ∀ x ∈ c, isObjLike x.2 = true := by
      intro x hx
      by_contra hobj
      have hxs : x ∈ scalarEntries c := by
        rw [scalarEntries, List.mem_filter]
        refine ⟨hx, ?_⟩
        simp only [Bool.not_eq_true] at hobj
        simp [hobj]
      rw [hsc] at hxs
      simp at hxs
    have hdnm := default_not_mem_of_objLike hnd hall hdef
    have hno : ∀ x ∈ c, x.1 ≠ "default" := by
      intro x hx hxe
      exact hdnm (hxe ▸ mem_akeys.mpr ⟨x.2, Prod.mk.eta ▸ hx⟩)
    have hmg : mergeGroupedContent (groupContent c) = c := by
      rw [hgc, mergeGroupedContent_eq_flattenG
        (by rw [flattenG_of_no_default hno]; exact hnd),
        flattenG_of_no_default hno]
    rw [hmg]
    exact ⟨List.Perm.refl c, fun _ => rfl⟩
  · have hps : ∀ x ∈ p, x.1 ≠ "default" := by
      intro x hx hxe
      have hm : ("default", x.2) ∈ c := by
        rw [← hxe]
        rw [hc]
        exact List.mem_append_left _ (Prod.mk.eta ▸ hx)
      have h2 := default_key_not_objLike hnd hdef hm
      rw [hp x hx] at h2
      exact Bool.true_eq_false.mp h2
    have hqs : ∀ x ∈ objEntries q, x.1 ≠ "default" := by
      intro x hx hxe
      have hxq := List.mem_of_mem_filter hx
      have hxo : isObjLike x.2 = true := by
        have := List.of_mem_filter hx
        simpa using this
      have hm : ("default", x.2) ∈ c := by
        rw [← hxe]
        rw [hc]
        exact List.mem_append_right _ (List.mem_cons_of_mem _ (Prod.mk.eta ▸ hxq))
      have h2 := default_key_not_objLike hnd hdef hm
      rw [hxo] at h2
      exact Bool.true_eq_false.mp h2
    have hflat : flattenG (groupContent c) =
        p ++ s :: (scalarEntries q ++ objEntries q) := by
      rw [hgc, flattenG_append, flattenG_of_no_default hps,
        flattenG_cons_default_obj, flattenG_of_no_default hqs]
      simp
    have hperm : (flattenG (groupContent c)).Perm c := by
      rw [hflat, hc]
      exact List.Perm.append_left p ((scalar_obj_partition_perm q).cons s)
    have hndf : (akeys (flattenG (groupContent c))).Nodup := by
      have hkp : (akeys (flattenG (groupContent c))).Perm (akeys c) :=
        hperm.map Prod.fst
      exact hkp.nodup_iff.mpr hnd
    have hmg : mergeGroupedContent (groupContent c) =
        p ++ s :: (scalarEntries q ++ objEntries q) := by
      rw [mergeGroupedContent_eq_flattenG hndf, hflat]
    have hndq : (akeys q).Nodup := by
      rw [hc, akeys_append] at hnd
      rw [List.nodup_append] at hnd
      have := hnd.2.1
      simp only [akeys_cons, List.nodup_cons] at this
      exact this.2
    constructor
    · rw [hmg, hc]
      exact List.Perm.append_left p ((scalar_obj_partition_perm q).cons s)
    · intro k
      rw [hmg, hc, alook_append, alook_append]
      cases alook p k with
      | some v => rfl
      | none =>
        by_cases hk : s.1 = k
        · simp [alook, hk]
        · simp only [alook, if_neg hk]
          exact alook_scalar_obj_partition q hndq k

/-- C2 counterexample: the catalog `{"default": {"x": "1"}}` has at most one
level of nesting, yet grouping followed by merging yields `{"x": "1"}` — the
nested object under the literal key `default` is flattened to the top level,
so the round trip does not restore the original catalog. -/
theorem group_merge_roundTrip_counterexample :
    nestingLE1 [("default", JSONValue.obj [("x", JSONValue.str "1")])] = true ∧
    mergeGroupedContent (groupContent
        [("default", JSONValue.obj [("x", JSONValue.str "1")])]) ≠
      [("default", JSONValue.obj [("x", JSONValue.str "1")])] := by
  constructor
  · decide
  · decide

/-- C2 (amended): for every catalog with at most one level of nesting, unique
keys, and no object-like value stored under the literal key `default`,
regrouping and merging restores the catalog up to key order: the result is a
permutation of the original catalog and agrees with it on every key lookup. -/
theorem group_merge_roundTrip (c : JSONObject) (hn : nestingLE1 c = true)
    (hnd : (akeys c).Nodup) (hdef : objLikeDefault c = false) :
    (mergeGroupedContent (groupContent c)).Perm c ∧
    ∀ k, alook (mergeGroupedContent (groupContent c)) k = alook c k :=
  roundTrip_perm_alook c hnd hdef

/-- Witness for C2 at a concrete catalog: `{"t": "1", "g": {"x": "2"}}`
satisfies the hypotheses, and the round trip preserves the lookup of `g`. -/
theorem group_merge_roundTrip_witness :
    nestingLE1 [("t", JSONValue.str "1"),
        ("g", JSONValue.obj [("x", JSONValue.str "2")])] = true ∧
    (akeys [("t", JSONValue.str "1"),
        ("g", JSONValue.obj [("x", JSONValue.str "2")])]).Nodup ∧
    objLikeDefault [("t", JSONValue.str "1"),
        ("g", JSONValue.obj [("x", JSONValue.str "2")])] = false ∧
    alook (mergeGroupedContent (groupContent [("t", JSONValue.str "1"),
        ("g", JSONValue.obj [("x", JSONValue.str "2")])])) "g" =
      alook [("t", JSONValue.str "1"),
        ("g", JSONValue.obj [("x", JSONValue.str "2")])] "g" :=
  ⟨by decide, by decide, by decide,
    (group_merge_roundTrip
      [("t", JSONValue.str "1"), ("g", JSONValue.obj [("x", JSONValue.str "2")])]
      (by decide) (by decide) (by decide)).2 "g"⟩

/-- C10 counterexample: merging an empty set of incoming groups into the
catalog `{"default": {"k": "v"}, "s": "t"}` (one level of nesting) produces
`{"k": "v", "s": "t"}`: the regroup-then-merge pipeline flattens the nested
object stored under the literal key `default`, so it is not the identity. -/
theorem updateLanguageContent_empty_counterexample :
    nestingLE1 [("default", JSONValue.obj [("k", JSONValue.str "v")]),
        ("s", JSONValue.str "t")] = true ∧
    updateLanguageContent [("default", JSONValue.obj [("k", JSONValue.str "v")]),
        ("s", JSONValue.str "t")] [] ≠
      [("default", JSONValue.obj [("k", JSONValue.str "v")]),
        ("s", JSONValue.str "t")] := by
  constructor
  · decide
  · decide

/-- C10 (amended): for every existing catalog with at most one level of
nesting, unique keys, and no object-like value under the literal key
`default`, merging an empty set of incoming groups preserves the catalog's
content: the written-back catalog agrees with the existing one on every key
lookup (key order may change). -/
theorem updateLanguageContent_empty_identity (c : JSONObject)
    (hn : nestingLE1 c = true) (hnd : (akeys c).Nodup)
    (hdef : objLikeDefault c = false) :
    ∀ k, alook (updateLanguageContent c []) k = alook c k := by
  intro k
  simp only [updateLanguageContent, updateGroups, List.foldl_nil]
  exact (roundTrip_perm_alook c hnd hdef).2 k

/-- Witness for C10 at a concrete catalog: `{"u": "1"}` satisfies the
hypotheses and merging no groups preserves the lookup of `u`. -/
theorem updateLanguageContent_empty_identity_witness :
    nestingLE1 [("u", JSONValue.str "1")] = true ∧
    (akeys [("u", JSONValue.str "1")]).Nodup ∧
    objLikeDefault [("u", JSONValue.str "1")] = false ∧
    alook (updateLanguageContent [("u", JSONValue.str "1")] []) "u" =
      alook [("u", JSONValue.str "1")] "u" :=
  ⟨by decide, by decide, by decide,
    updateLanguageContent_empty_identity [("u", JSONValue.str "1")]
      (by decide) (by decide) (by decide) "u"⟩

theorem alook_append_of_some {α : Type} {l r : List (String × α)} {k : String}
    {v : α} (h : alook l k = some v) : alook (l ++ r) k = some v := by
  rw [alook_append, h]

theorem alook_append_of_none {α : Type} {l r : List (String × α)} {k : String}
    (h : alook l k = none) : alook (l ++ r) k = alook r k := by
  rw [alook_append, h]

theorem mem_aset_self {α : Type} (l : List (String × α)) (k : String) (v : α) :
    (k, v) ∈ aset l k v := by
  induction l with
  | nil => simp [aset]
  | cons e rest ih =>
    by_cases he : e.1 = k
    · simp [aset, he]
    · simp only [aset, if_neg he, List.mem_cons]
      exact Or.inr ih

theorem all_objLike_of_scalarEntries_nil {c : JSONObject}
    (h : scalarEntries c = []) : ∀ x ∈ c, isObjLike x.2 = true := by
  intro x hx
  by_contra hobj
  have hxs : x ∈ scalarEntries c := by
    rw [scalarEntries, List.mem_filter]
    refine ⟨hx, ?_⟩
    simp only [Bool.not_eq_true] at hobj
    simp [hobj]
  rw [h] at hxs
  simp at hxs

/-- Flattening the grouped content permutes the original catalog. -/
theorem flattenG_groupContent_perm (c : JSONObject) (hnd : (akeys c).Nodup)
    (hdef : objLikeDefault c = false) : (flattenG (groupContent c)).Perm c := by
  rcases groupContent_shape c hnd hdef with ⟨hsc, hgc⟩ | ⟨p, s, q, hc, hp, hs, hgc⟩
  · have hall := all_objLike_of_scalarEntries_nil hsc
    have hdnm := default_not_mem_of_objLike hnd hall hdef
    have hno : ∀ x ∈ c, x.1 ≠ "default" := by
      intro x hx hxe
      exact hdnm (hxe ▸ mem_akeys.mpr ⟨x.2, Prod.mk.eta ▸ hx⟩)
    rw [hgc, flattenG_of_no_default hno]
  · have hps : ∀ x ∈ p, x.1 ≠ "default" := by
      intro x hx hxe
      have hm : ("default", x.2) ∈ c := by
        rw [← hxe, hc]
        exact List.mem_append_left _ (Prod.mk.eta ▸ hx)
      have h2 := default_key_not_objLike hnd hdef hm
      rw [hp x hx] at h2
      exact Bool.true_eq_false.mp h2
    have hqs : ∀ x ∈ objEntries q, x.1 ≠ "default" := by
      intro x hx hxe
      have hxq := List.mem_of_mem_filter hx
      have hxo : isObjLike x.2 = true := by simpa using List.of_mem_filter hx
      have hm : ("default", x.2) ∈ c := by
        rw [← hxe, hc]
        exact List.mem_append_right _ (List.mem_cons_of_mem _ (Prod.mk.eta ▸ hxq))
      have h2 := default_key_not_objLike hnd hdef hm
      rw [hxo] at h2
      exact Bool.true_eq_false.mp h2
    rw [hgc, flattenG_append, flattenG_of_no_default hps,
      flattenG_cons_default_obj, flattenG_of_no_default hqs, hc]
    have : (s :: scalarEntries q ++ objEntries q).Perm (s :: q) :=
      (scalar_obj_partition_perm q).cons s
    simpa using List.Perm.append_left p this

theorem akeys_flattenG_aset {g : JSONObject} {k : String} (v : JSONValue)
    (hk : k ∈ akeys g) (hd : k ≠ "default") :
    akeys (flattenG (aset g k v)) = akeys (flattenG g) := by
  induction g with
  | nil => simp at hk
  | cons e rest ih =>
    by_cases he : e.1 = k
    · simp only [aset, if_pos he]
      rw [flattenG_cons_ne rest hd, flattenG_cons_ne rest (he ▸ hd)]
      simp [he]
    · simp only [aset, if_neg he]
      have hk' : k ∈ akeys rest := by
        rcases List.mem_cons.mp (by simpa using hk) with h | h
        · exact absurd h.symm he
        · exact h
      simp only [flattenG]
      rw [akeys_append, akeys_append, ih hk']

theorem alook_objEntries {q : JSONObject} (hnd : (akeys q).Nodup)
    {gn : String} {gv : JSONValue} (hg : alook q gn = some gv)
    (hobj : isObjLike gv = true) : alook (objEntries q) gn = some gv := by
  have hm := alook_mem hg
  have hmo : (gn, gv) ∈ objEntries q := by
    rw [objEntries, List.mem_filter]
    exact ⟨hm, hobj⟩
  have hndo : (akeys (objEntries q)).Nodup :=
    hnd.sublist ((List.filter_sublist q).map Prod.fst)
  exact mem_alook_of_nodup hndo hmo

/-- An object-like entry of the catalog is looked up unchanged in the grouped
content: grouping keeps each object-valued key as its own group. -/
theorem alook_groupContent_obj {c : JSONObject} (hnd : (akeys c).Nodup)
    (hdef : objLikeDefault c = false) {gn : String} {gv : JSONValue}
    (hg : alook c gn = some gv) (hobj : isObjLike gv = true) :
    alook (groupContent c) gn = some gv := by
  rcases groupContent_shape c hnd hdef with ⟨_, hgc⟩ | ⟨p, s, q, hc, hp, hs, hgc⟩
  · rw [hgc]
    exact hg
  · have hgn : gn ≠ "default" := by
      intro h
      have h2 := default_key_not_objLike hnd hdef (h ▸ alook_mem hg)
      rw [hobj] at h2
      exact Bool.true_eq_false.mp h2
    have hndq : (akeys q).Nodup := by
      rw [hc, akeys_append, List.nodup_append] at hnd
      have h2 := hnd.2.1
      simp only [akeys_cons, List.nodup_cons] at h2
      exact h2.2
    rw [hc] at hg
    rw [hgc]
    cases hpl : alook p gn with
    | some v =>
      rw [alook_append_of_some hpl] at hg
      rw [alook_append_of_some hpl]
      exact hg
    | none =>
      rw [alook_append_of_none hpl] at hg
      rw [alook_append_of_none hpl]
      have hs1 : s.1 ≠ gn := by
        intro h
        rw [alook, if_pos h] at hg
        cases hg
        rw [hs] at hobj
        exact Bool.false_ne_true hobj
      rw [alook, if_neg hs1] at hg
      rw [alook, if_neg (fun h => hgn h.symm)]
      exact alook_objEntries hndq hg hobj

/-- C3 counterexample: for the existing target catalog
`{"g": {"x": "1"}, "default": {"g": "v"}}` and the incoming group
`g = {"y": "2"}`, whose key set `{y}` differs from the existing `{x}`, the
group is replaced in the grouped view, but the reassembly then runs
`Object.assign` with the `default` group's entry `g` after writing the group,
so the written-back catalog holds the string `"v"` under `g` — not the
incoming group. -/
theorem update_structural_change_replaces_counterexample :
    structurallyChanged (.obj [("x", JSONValue.str "1")])
      (.obj [("y", JSONValue.str "2")]) = true ∧
    alook [("g", JSONValue.obj [("x", JSONValue.str "1")]),
        ("default", JSONValue.obj [("g", JSONValue.str "v")])] "g" =
      some (.obj [("x", JSONValue.str "1")]) ∧
    alook (updateLanguageContent
        [("g", JSONValue.obj [("x", JSONValue.str "1")]),
          ("default", JSONValue.obj [("g", JSONValue.str "v")])]
        [("g", JSONValue.obj [("y", JSONValue.str "2")])]) "g" =
      some (JSONValue.str "v") ∧
    alook (updateLanguageContent
        [("g", JSONValue.obj [("x", JSONValue.str "1")]),
          ("default", JSONValue.obj [("g", JSONValue.str "v")])]
        [("g", JSONValue.obj [("y", JSONValue.str "2")])]) "g" ≠
      some (JSONValue.obj [("y", JSONValue.str "2")]) := by
  refine ⟨?_, ?_, ?_, ?_⟩
  · decide
  · decide
  · decide
  · decide

/-- C3 (amended): for every existing target catalog with unique keys and no
object-like value stored under the literal key `default`, when an incoming
group whose name (distinct from the synthetic name `default`) already exists
in the catalog has a key set that differs from the existing group's key set
(in size or membership), the update replaces the group entirely: in the
written-back catalog the value under the group's name is exactly the incoming
group, with no leftover key from the old group.  (The counterexample shows
the replacement is clobbered when a nested object stored under the literal
key `default` holds an entry named like the group.) -/
theorem update_structural_change_replaces (data : JSONObject) (gn : String)
    (og nd : List (String × JSONValue))
    (hnd : (akeys data).Nodup) (hdef : objLikeDefault data = false)
    (hgn : gn ≠ "default")
    (hex : alook data gn = some (.obj og))
    (hch : structurallyChanged (.obj og) (.obj nd) = true) :
    alook (updateLanguageContent data [(gn, .obj nd)]) gn = some (.obj nd) := by
  have hlE : alook (groupContent data) gn = some (.obj og) :=
    alook_groupContent_obj hnd hdef hex rfl
  have hupd : updateGroups (groupContent data) [(gn, .obj nd)] =
      aset (groupContent data) gn (.obj nd) := by
    simp only [updateGroups, List.foldl_cons, List.foldl_nil, updateStep, hlE,
      if_pos hch]
  have hndE : (akeys (flattenG (groupContent data))).Nodup :=
    (((flattenG_groupContent_perm data hnd hdef).map Prod.fst).nodup_iff).mpr hnd
  have hkE : gn ∈ akeys (groupContent data) :=
    (alook_isSome_iff_mem _ _).mp (by simp [hlE])
  have hset := akeys_flattenG_aset (JSONValue.obj nd) hkE hgn
  have hndset : (akeys (flattenG (aset (groupContent data) gn (.obj nd)))).Nodup := by
    rw [hset]
    exact hndE
  rw [updateLanguageContent, hupd, mergeGroupedContent_eq_flattenG hndset]
  exact mem_alook_of_nodup hndset
    (mem_flattenG (mem_aset_self (groupContent data) gn (.obj nd)) hgn)

/-- Witness for C3 at the spec's concrete example: existing group
`A = {x:"1", y:"2"}`, incoming group `A = {x:"1", z:"3"}` — the result's group
`A` equals the incoming group exactly. -/
theorem update_structural_change_replaces_witness :
    (akeys [("A", JSONValue.obj [("x", JSONValue.str "1"), ("y", JSONValue.str "2")])]).Nodup ∧
    objLikeDefault [("A", JSONValue.obj [("x", JSONValue.str "1"), ("y", JSONValue.str "2")])] = false ∧
    alook [("A", JSONValue.obj [("x", JSONValue.str "1"), ("y", JSONValue.str "2")])] "A" =
      some (.obj [("x", JSONValue.str "1"), ("y", JSONValue.str "2")]) ∧
    structurallyChanged (.obj [("x", JSONValue.str "1"), ("y", JSONValue.str "2")])
      (.obj [("x", JSONValue.str "1"), ("z", JSONValue.str "3")]) = true ∧
    alook (updateLanguageContent
        [("A", JSONValue.obj [("x", JSONValue.str "1"), ("y", JSONValue.str "2")])]
        [("A", JSONValue.obj [("x", JSONValue.str "1"), ("z", JSONValue.str "3")])]) "A" =
      some (.obj [("x", JSONValue.str "1"), ("z", JSONValue.str "3")]) :=
  ⟨by decide, by decide, by decide, by decide,
    update_structural_change_replaces
      [("A", JSONValue.obj [("x", JSONValue.str "1"), ("y", JSONValue.str "2")])] "A"
      [("x", JSONValue.str "1"), ("y", JSONValue.str "2")]
      [("x", JSONValue.str "1"), ("z", JSONValue.str "3")]
      (by decide) (by decide) (by decide) (by decide) (by decide)⟩

/-- `getTranslatableContent` in `src/diff.ts`: collects the current values of
the added keys, then of the changed keys (keys absent from the current catalog
are skipped; parsed JSON never holds `undefined`). -/
def getTranslatableContent (newObj : JSONObject) (diffResult : DiffResult) :
    JSONObject :=
  let r1 := diffResult.added.foldl
    (fun r k =>
      match alook newObj k with
      | some v => aset r k v
      | none => r) []
  diffResult.changed.foldl
    (fun r k =>
      match alook newObj k with
      | some v => aset r k v
      | none => r) r1

mutual

/-- JavaScript `String(v)` conversion of a JSON value: numbers print as
integers here, booleans as `true`/`false`, `null` as `"null"`, arrays join
their elements with commas, objects print as `[object Object]`. -/
def jsString : JSONValue → String
  | .str s => s
  | .num n => toString n
  | .bool b => if b then "true" else "false"
  | .null => "null"
  | .arr a => String.intercalate "," (jsStringElems a)
  | .obj _ => "[object Object]"

/-- Elements of an array as strings for `Array.prototype.toString`; `null`
elements join as the empty string. -/
def jsStringElems : List JSONValue → List String
  | [] => []
  | v :: rest =>
    (match v with
     | .null => ""
     | v => jsString v) :: jsStringElems rest

end

/-- `typeof value === 'string' ? value : String(value || '')` in
`checkTranslationNeeds` (`src/translate.ts`): strings pass through, falsy
values become the empty string, anything else is converted with `String`. -/
def stringOrDefault : JSONValue → String
  | .str s => s
  | v => if isFalsy v then "" else jsString v

/-- The object branch of the grouped-conversion loop in
`checkTranslationNeeds`: each value of a nested group is kept when it is a
string and converted with `String` otherwise. -/
def convertGroupValues (inner : List (String × JSONValue)) :
    List (String × JSONValue) :=
  inner.map (fun se => (se.1,
    match se.2 with
    | .str s => JSONValue.str s
    | v => JSONValue.str (jsString v)))

/-- The conversion of raw translatable content to grouped content in
`checkTranslationNeeds` (`src/translate.ts`): non-array object values keep
their key as a group with values coerced to strings, everything else is
collected into the `default` group as a string. -/
def toGroupedTranslatable (raw : JSONObject) : JSONObject :=
  raw.foldl
    (fun acc e =>
      match e.2 with
      | .obj inner => aset acc e.1 (.obj (convertGroupValues inner))
      | _ => defaultInsert acc e.1 (.str (stringOrDefault e.2)))
    []

/-- Result of `checkTranslationNeeds`. -/
structure NeedsResult where
  shouldTranslate : Bool
  translatableContent : JSONObject
deriving DecidableEq

/-- `checkTranslationNeeds` in `src/translate.ts`, with file I/O replaced by
the parsed baseline (`oldData`, plus a flag for whether the baseline file
exists) and the parsed current catalog (`enData`); an unreadable baseline file
is treated as empty by the source and is covered by the empty `oldData` case.
A first run (missing or empty baseline) groups the whole catalog; an empty
diff means no work; otherwise the added and changed keys' current values are
collected, converted and grouped. -/
def checkTranslationNeeds (baselineExists : Bool) (oldData enData : JSONObject) :
    NeedsResult :=
  if !baselineExists || (akeys oldData).isEmpty then
    ⟨true, groupContent enData⟩
  else
    let diffResult := diff oldData enData
    if diffResult.missing.isEmpty && diffResult.added.isEmpty &&
        diffResult.changed.isEmpty then
      ⟨false, []⟩
    else
      ⟨true, toGroupedTranslatable (getTranslatableContent enData diffResult)⟩

/-- Whether the pattern is a leading segment of the character list. -/
def leadsWith : List Char → List Char → Bool
  | [], _ => true
  | _ :: _, [] => false
  | p :: ps, c :: cs => (p = c : Bool) && leadsWith ps cs

/-- Whether the pattern occurs contiguously somewhere in the character list. -/
def charsInclude (pat : List Char) : List Char → Bool
  | [] => pat.isEmpty
  | c :: cs => leadsWith pat (c :: cs) || charsInclude pat cs

/-- JavaScript `msg.includes(pat)`. -/
def strIncludes (msg pat : String) : Bool :=
  charsInclude pat.toList msg.toList

/-- The severe-error test of the language loop in `translate`
(`src/translate.ts`): the error message mentions the API, the network
(`网络`), or an excessive error rate (`错误率过高`). -/
def isSevereError (msg : String) : Bool :=
  strIncludes msg "API" || strIncludes msg "网络" || strIncludes msg "错误率过高"

/-- Outcome of `translateLanguage` for one target language as observed by the
main loop of `translate`: success, or failure with an error message. -/
inductive LangOutcome where
  | ok
  | err (msg : String)
deriving DecidableEq

/-- The per-language loop of `translate` (`src/translate.ts`): languages are
processed in order; a success is recorded among the translated languages, a
failure records its error message, and a severe failure (API / network /
error-rate message) stops the loop.  The per-language work itself is the
collaborator call `translateLanguage`, abstracted as the outcome function
`f`. -/
def translateLoop : List String → (String → LangOutcome) → List String × List String
  | [], _ => ([], [])
  | t :: rest, f =>
    match f t with
    | .ok =>
      let r := translateLoop rest f
      (t :: r.1, r.2)
    | .err m =>
      if isSevereError m then ([], [m])
      else
        let r := translateLoop rest f
        (r.1, m :: r.2)

/-- The summary counters of `TranslateResult` in `src/translate.ts`. -/
structure TranslateSummary where
  totalLanguages : Nat
  translatedCount : Nat
  skippedCount : Nat
  errorCount : Nat
deriving DecidableEq

/-- `TranslateResult` of `src/translate.ts`, extended with two observation
flags: whether the baseline snapshot was overwritten (`backupFile(enFilePath,
oldEnFilePath)` ran) and whether the per-language loop was entered (the only
code path that invokes the translation provider). -/
structure TranslateResultM where
  success : Bool
  translatedLanguages : List String
  skippedLanguages : List String
  errors : List String
  summary : TranslateSummary
  baselineUpdated : Bool
  providerInvoked : Bool
deriving DecidableEq

/-- The orchestration of `translate` in `src/translate.ts` after
initialization: inputs are the discovered target languages, the baseline
snapshot (existence flag and parsed content), the parsed current source
catalog, and the per-language outcome of `translateLanguage`.  It mirrors the
early exits (no targets, no change detected, nothing to translate), the
language loop with its severe-error break, the baseline gate
(`translatedCount > 0`), and the final success computation
(`errorCount === 0 && translatedCount > 0`). -/
def translate (targets : List String) (baselineExists : Bool)
    (oldData enData : JSONObject) (f : String → LangOutcome) : TranslateResultM :=
  if targets.isEmpty then
    { success := true, translatedLanguages := [], skippedLanguages := [],
      errors := [], summary := ⟨targets.length, 0, 0, 0⟩,
      baselineUpdated := false, providerInvoked := false }
  else
    let needs := checkTranslationNeeds baselineExists oldData enData
    if !needs.shouldTranslate then
      { success := true, translatedLanguages := [], skippedLanguages := targets,
        errors := [], summary := ⟨targets.length, 0, targets.length, 0⟩,
        baselineUpdated := false, providerInvoked := false }
    else
      let totalItems := (needs.translatableContent.map
        (fun g => (objKeys g.2).length)).sum
      if totalItems = 0 then
        { success := true, translatedLanguages := [], skippedLanguages := targets,
          errors := [], summary := ⟨targets.length, 0, targets.length, 0⟩,
          baselineUpdated := false, providerInvoked := false }
      else
        let r := translateLoop targets f
        { success := decide (r.2.length = 0) && decide (0 < r.1.length),
          translatedLanguages := r.1, skippedLanguages := [],
          errors := r.2,
          summary := ⟨targets.length, r.1.length, 0, r.2.length⟩,
          baselineUpdated := decide (0 < r.1.length),
          providerInvoked := true }

theorem translateLoop_ok (targets : List String) (f : String → LangOutcome) :
    ∀ t ∈ (translateLoop targets f).1, f t = .ok := by
  induction targets with
  | nil => simp [translateLoop]
  | cons t rest ih =>
    intro x hx
    cases hf : f t with
    | ok =>
      simp only [translateLoop, hf] at hx
      rcases List.mem_cons.mp hx with he | hm
      · rw [he]
        exact hf
      · exact ih x hm
    | err m =>
      simp only [translateLoop, hf] at hx
      by_cases hs : isSevereError m = true
      · rw [if_pos hs] at hx
        simp at hx
      · rw [if_neg hs] at hx
        exact ih x hx

/-- C5: after a run, the baseline snapshot is overwritten if and only if at
least one target language's translation succeeded (`translatedCount > 0`); the
reported counts are the sizes of the translated-languages and error lists, and
every reported translated language had a successful outcome.  In particular a
run where some languages succeed and some fail still updates the baseline and
reports the respective counts, while a run where every language fails leaves
the baseline unchanged. -/
theorem baseline_gating (targets : List String) (baselineExists : Bool)
    (oldData enData : JSONObject) (f : String → LangOutcome) :
    ((translate targets baselineExists oldData enData f).baselineUpdated = true ↔
      0 < (translate targets baselineExists oldData enData f).summary.translatedCount) ∧
    (translate targets baselineExists oldData enData f).summary.translatedCount =
      (translate targets baselineExists oldData enData f).translatedLanguages.length ∧
    (translate targets baselineExists oldData enData f).summary.errorCount =
      (translate targets baselineExists oldData enData f).errors.length ∧
    ∀ t ∈ (translate targets baselineExists oldData enData f).translatedLanguages,
      f t = .ok := by
  by_cases h1 : targets.isEmpty
  · simp [translate, h1]
  · by_cases h2 : (checkTranslationNeeds baselineExists oldData enData).shouldTranslate
    · by_cases h3 : ((checkTranslationNeeds baselineExists oldData
          enData).translatableContent.map (fun g => (objKeys g.2).length)).sum = 0
      · simp [translate, h1, h2, h3]
      · have hmain := translateLoop_ok targets f
        simp only [translate, h1, h2, h3]
        simp only [Bool.not_true, Bool.false_eq_true, if_false, if_neg h3]
        exact ⟨by simp, by simp, by simp, hmain⟩
    · simp [translate, h1, h2]

/-- Witness for C5 at the spec's example: 3 target languages of which the
first two succeed and the third fails with a non-severe error — the baseline
is updated and the run reports `translatedCount = 2`, `errorCount = 1`. -/
theorem baseline_gating_witness :
    ((translate ["de", "es", "fr"] true [("a", JSONValue.str "1")]
        [("a", JSONValue.str "2")]
        (fun t => if t = "fr" then .err "boom" else .ok)).baselineUpdated = true ↔
      0 < (translate ["de", "es", "fr"] true [("a", JSONValue.str "1")]
        [("a", JSONValue.str "2")]
        (fun t => if t = "fr" then .err "boom" else .ok)).summary.translatedCount) ∧
    (translate ["de", "es", "fr"] true [("a", JSONValue.str "1")]
        [("a", JSONValue.str "2")]
        (fun t => if t = "fr" then .err "boom" else .ok)).summary.translatedCount = 2 ∧
    (translate ["de", "es", "fr"] true [("a", JSONValue.str "1")]
        [("a", JSONValue.str "2")]
        (fun t => if t = "fr" then .err "boom" else .ok)).summary.errorCount = 1 ∧
    (translate ["de", "es", "fr"] true [("a", JSONValue.str "1")]
        [("a", JSONValue.str "2")]
        (fun t => if t = "fr" then .err "boom" else .ok)).baselineUpdated = true :=
  ⟨(baseline_gating ["de", "es", "fr"] true [("a", JSONValue.str "1")]
      [("a", JSONValue.str "2")]
      (fun t => if t = "fr" then .err "boom" else .ok)).1,
    by decide, by decide, by decide⟩

/-- C6: a run whose diff against an existing non-empty baseline yields only
missing keys (added and changed both empty) computes empty translatable
content and terminates successfully with every target language reported
skipped and the translation provider never invoked. -/
theorem deletion_only_run_skips (targets : List String)
    (oldData enData : JSONObject) (f : String → LangOutcome)
    (hne : (akeys oldData).isEmpty = false)
    (hadd : (diff oldData enData).added = [])
    (hchg : (diff oldData enData).changed = [])
    (hmiss : (diff oldData enData).missing ≠ []) :
    (checkTranslationNeeds true oldData enData).translatableContent = [] ∧
    (checkTranslationNeeds true oldData enData).shouldTranslate = true ∧
    (translate targets true oldData enData f).success = true ∧
    (translate targets true oldData enData f).skippedLanguages = targets ∧
    (translate targets true oldData enData f).summary.skippedCount =
      targets.length ∧
    (translate targets true oldData enData f).summary.translatedCount = 0 ∧
    (translate targets true oldData enData f).providerInvoked = false := by
  have hraw : getTranslatableContent enData (diff oldData enData) = [] := by
    simp only [getTranslatableContent, hadd, hchg, List.foldl_nil]
  have hmiss' : (diff oldData enData).missing.isEmpty = false := by
    cases hm : (diff oldData enData).missing with
    | nil => exact absurd hm hmiss
    | cons a l => simp
  have hneeds : checkTranslationNeeds true oldData enData = ⟨true, []⟩ := by
    simp only [checkTranslationNeeds, Bool.not_true, Bool.false_or, hne,
      Bool.false_eq_true, if_false, hmiss', Bool.false_and, hraw]
    rfl
  refine ⟨by rw [hneeds], by rw [hneeds], ?_, ?_, ?_, ?_, ?_⟩ <;>
    · by_cases h1 : targets.isEmpty
      · have h1' : targets = [] := List.isEmpty_iff.mp h1
        simp [translate, h1, h1']
      · simp [translate, h1, hneeds]

/-- Witness for C6: baseline `{a:"1", b:"2"}`, current `{a:"1"}` — a
deletion-only diff; with one target language the run is a successful all-skip
with no provider call. -/
theorem deletion_only_run_skips_witness :
    (akeys [("a", JSONValue.str "1"), ("b", JSONValue.str "2")]).isEmpty = false ∧
    (diff [("a", JSONValue.str "1"), ("b", JSONValue.str "2")]
      [("a", JSONValue.str "1")]).added = [] ∧
    (diff [("a", JSONValue.str "1"), ("b", JSONValue.str "2")]
      [("a", JSONValue.str "1")]).changed = [] ∧
    (diff [("a", JSONValue.str "1"), ("b", JSONValue.str "2")]
      [("a", JSONValue.str "1")]).missing ≠ [] ∧
    (translate ["fr"] true [("a", JSONValue.str "1"), ("b", JSONValue.str "2")]
      [("a", JSONValue.str "1")] (fun _ => .ok)).success = true ∧
    (translate ["fr"] true [("a", JSONValue.str "1"), ("b", JSONValue.str "2")]
      [("a", JSONValue.str "1")] (fun _ => .ok)).providerInvoked = false :=
  ⟨by decide, by decide, by decide, by decide,
    ((deletion_only_run_skips ["fr"]
      [("a", JSONValue.str "1"), ("b", JSONValue.str "2")]
      [("a", JSONValue.str "1")] (fun _ => .ok)
      (by decide) (by decide) (by decide) (by decide)).2.2).1,
    (deletion_only_run_skips ["fr"]
      [("a", JSONValue.str "1"), ("b", JSONValue.str "2")]
      [("a", JSONValue.str "1")] (fun _ => .ok)
      (by decide) (by decide) (by decide) (by decide)).2.2.2.2.2.2⟩

/-! ### Circuit breaker of `translateLanguage` (`src/translate.ts`) -/

/-- Outcome of one group's translation attempt within a language: the
provider call (plus result validation) either succeeds or throws.  Empty
groups are skipped by the loop and produce no outcome. -/
inductive GroupOutcome where
  | ok
  | fail
deriving DecidableEq

/-- How the per-language group loop of `translateLanguage` ends: all attempted
groups processed with at least one success, aborted by the error-rate circuit
breaker, or finished without any successfully translated group. -/
inductive LangResult where
  | success
  | abortedHighErrorRate
  | failedNoGroups
deriving DecidableEq

/-- Whether a language's translation is reported successful. -/
def langResultOk : LangResult → Bool
  | .success => true
  | _ => false

/-- The circuit-breaker test of `translateLanguage` (`src/translate.ts`):
`errorRate > 0.5 && groupErrors >= 2` where `errorRate = groupErrors /
(successes + groupErrors)`.  For the integer counts involved the
floating-point comparison against `0.5` is exact and equals the integer
comparison `successes + errors < 2 * errors`. -/
def breakerTrips (successes errors : Nat) : Bool :=
  decide (successes + errors < 2 * errors) && decide (2 ≤ errors)

/-- Successful group outcomes. -/
def countOk : List GroupOutcome → Nat
  | [] => 0
  | .ok :: rest => countOk rest + 1
  | .fail :: rest => countOk rest

/-- Failed group outcomes. -/
def countFail : List GroupOutcome → Nat
  | [] => 0
  | .ok :: rest => countFail rest
  | .fail :: rest => countFail rest + 1

/-- The group loop of `translateLanguage` over the outcomes of the attempted
groups, carrying the number of successfully translated groups
(`Object.keys(translatedGroups).length`) and the error counter
(`groupErrors`).  Returns how many group outcomes were consumed and how the
language run ends: a failure first increments the error counter, then the
breaker test aborts the whole language (the thrown error message mentions
`错误率过高`, so `translateLanguage` reports the language failed); after a
completed loop a language with no translated group is also a failure. -/
def translateLanguageRun : List GroupOutcome → Nat → Nat → Nat × LangResult
  | [], successes, _ =>
    (0, if successes = 0 then .failedNoGroups else .success)
  | .ok :: rest, successes, errors =>
    let r := translateLanguageRun rest (successes + 1) errors
    (r.1 + 1, r.2)
  | .fail :: rest, successes, errors =>
    if breakerTrips successes (errors + 1) then (1, .abortedHighErrorRate)
    else
      let r := translateLanguageRun rest successes (errors + 1)
      (r.1 + 1, r.2)

/-- The group loop runs through all outcomes without tripping the breaker. -/
def runsClean : List GroupOutcome → Nat → Nat → Bool
  | [], _, _ => true
  | .ok :: rest, successes, errors => runsClean rest (successes + 1) errors
  | .fail :: rest, successes, errors =>
    !breakerTrips successes (errors + 1) && runsClean rest successes (errors + 1)

theorem translateLanguageRun_append (pre l : List GroupOutcome)
    (successes errors : Nat) (h : runsClean pre successes errors = true) :
    translateLanguageRun (pre ++ l) successes errors =
      (pre.length +
        (translateLanguageRun l (successes + countOk pre)
          (errors + countFail pre)).1,
       (translateLanguageRun l (successes + countOk pre)
          (errors + countFail pre)).2) := by
  induction pre generalizing successes errors with
  | nil => simp [countOk, countFail]
  | cons g rest ih =>
    cases g with
    | ok =>
      simp only [runsClean] at h
      rw [List.cons_append]
      simp only [translateLanguageRun]
      rw [ih (successes + 1) errors h]
      have e1 : successes + 1 + countOk rest = successes + countOk (.ok :: rest) := by
        simp only [countOk]
        omega
      have e2 : errors + countFail rest = errors + countFail (.ok :: rest) := by
        simp only [countFail]
      rw [e1, e2]
      simp only [Prod.mk.injEq, List.length_cons]
      constructor
      · omega
      · trivial
    | fail =>
      simp only [runsClean, Bool.and_eq_true, Bool.not_eq_true'] at h
      rw [List.cons_append]
      simp only [translateLanguageRun]
      rw [if_neg (by rw [h.1]; exact Bool.false_ne_true)]
      rw [ih successes (errors + 1) h.2]
      have e1 : successes + countOk rest = successes + countOk (.fail :: rest) := by
        simp only [countOk]
      have e2 : errors + 1 + countFail rest = errors + countFail (.fail :: rest) := by
        simp only [countFail]
        omega
      rw [e1, e2]
      simp only [Prod.mk.injEq, List.length_cons]
      constructor
      · omega
      · trivial

/-- C7: group failures are counted per language, and as soon as the error rate
among the groups processed so far exceeds 50% with at least two failed groups,
the language run stops: it consumes exactly the groups up to and including the
tripping failure — none of the remaining groups is attempted — and the
language is reported as failed. -/
theorem circuit_breaker_stops_language (pre rest : List GroupOutcome)
    (hclean : runsClean pre 0 0 = true)
    (htrip : breakerTrips (countOk pre) (countFail pre + 1) = true) :
    translateLanguageRun (pre ++ .fail :: rest) 0 0 =
      (pre.length + 1, .abortedHighErrorRate) ∧
    langResultOk (translateLanguageRun (pre ++ .fail :: rest) 0 0).2 = false := by
  have hmain : translateLanguageRun (pre ++ .fail :: rest) 0 0 =
      (pre.length + 1, .abortedHighErrorRate) := by
    rw [translateLanguageRun_append pre (.fail :: rest) 0 0 hclean]
    simp only [Nat.zero_add]
    simp only [translateLanguageRun]
    rw [if_pos htrip]
  refine ⟨hmain, ?_⟩
  rw [hmain]
  rfl

/-- Witness for C7: after outcomes `[fail, ok]` the breaker has not tripped;
a further failure makes 2 of 3 groups failed (error rate 66.7% > 50%, at least
two failures), so the language stops after consuming exactly 3 outcomes and
never attempts the remaining group. -/
theorem circuit_breaker_stops_language_witness :
    runsClean [GroupOutcome.fail, GroupOutcome.ok] 0 0 = true ∧
    breakerTrips (countOk [GroupOutcome.fail, GroupOutcome.ok])
      (countFail [GroupOutcome.fail, GroupOutcome.ok] + 1) = true ∧
    translateLanguageRun
      [GroupOutcome.fail, GroupOutcome.ok, GroupOutcome.fail, GroupOutcome.ok]
      0 0 = (3, .abortedHighErrorRate) :=
  ⟨by decide, by decide, by
    have h := (circuit_breaker_stops_language [.fail, .ok] [.ok]
      (by decide) (by decide)).1
    simpa using h⟩

/-! ### Missing-key backfill of `translateTextObject` (`src/ai.ts`) -/

/-- One step of the key-backfill loop of `translateTextObject`: a requested
key already present in the parsed translation is left alone, an absent key is
written with its original untranslated text. -/
def fillStep (acc : List (String × String)) (e : String × String) :
    List (String × String) :=
  match alook acc e.1 with
  | some _ => acc
  | none => aset acc e.1 e.2

/-- The key-backfill of `translateTextObject` (`src/ai.ts`, after parsing the
provider response): for every key of the requested text object absent from
the parsed translation, the original untranslated text is inserted under that
key; keys present in the response keep the returned translation.  The loop
never throws, so a short response does not fail the group. -/
def fillMissingKeys (textObject translatedObject : List (String × String)) :
    List (String × String) :=
  textObject.foldl fillStep translatedObject

theorem fillFold_preserves (l : List (String × String))
    {acc : List (String × String)} {k w : String}
    (h : alook acc k = some w) : alook (l.foldl fillStep acc) k = some w := by
  induction l generalizing acc with
  | nil => exact h
  | cons e rest ih =>
    rw [List.foldl_cons]
    apply ih
    show alook (fillStep acc e) k = some w
    simp only [fillStep]
    cases ha : alook acc e.1 with
    | some v => exact h
    | none =>
      show alook (aset acc e.1 e.2) k = some w
      by_cases hk : e.1 = k
      · rw [hk] at ha
        rw [ha] at h
        cases h
      · rw [alook_aset_ne acc e.1 k e.2 hk]
        exact h

theorem fillFold_adds {l acc : List (String × String)} {k v : String}
    (hnd : (akeys l).Nodup) (hl : alook l k = some v)
    (hacc : alook acc k = none) : alook (l.foldl fillStep acc) k = some v := by
  induction l generalizing acc with
  | nil => simp [alook] at hl
  | cons e rest ih =>
    simp only [akeys_cons, List.nodup_cons] at hnd
    rw [List.foldl_cons]
    by_cases hk : e.1 = k
    · rw [alook, if_pos hk] at hl
      injection hl with hl2
      subst hl2
      have hstep : fillStep acc e = aset acc e.1 e.2 := by
        show (match alook acc e.1 with
          | some _ => acc
          | none => aset acc e.1 e.2) = aset acc e.1 e.2
        rw [hk, hacc]
      rw [hstep]
      apply fillFold_preserves rest
      rw [hk]
      exact alook_aset_self acc k e.2
    · rw [alook, if_neg hk] at hl
      apply ih hnd.2 hl
      show alook (fillStep acc e) k = none
      simp only [fillStep]
      cases ha : alook acc e.1 with
      | some v2 => exact hacc
      | none =>
        show alook (aset acc e.1 e.2) k = none
        rw [alook_aset_ne acc e.1 k e.2 hk]
        exact hacc

/-- C8: for every requested text object (unique keys, as a JavaScript object)
and every parsed provider response, the backfilled mapping contains every
requested key: a requested key absent from the response is added with its
original untranslated text as value, and a key present in the response keeps
the returned translation — a short response therefore never loses keys and
does not fail the group. -/
theorem provider_short_response_backfill
    (textObject translatedObject : List (String × String))
    (hnd : (akeys textObject).Nodup) :
    (∀ k, k ∈ akeys textObject →
      k ∈ akeys (fillMissingKeys textObject translatedObject)) ∧
    (∀ k v, alook translatedObject k = none → alook textObject k = some v →
      alook (fillMissingKeys textObject translatedObject) k = some v) ∧
    (∀ k w, alook translatedObject k = some w →
      alook (fillMissingKeys textObject translatedObject) k = some w) := by
  refine ⟨?_, ?_, ?_⟩
  · intro k hk
    obtain ⟨v, hv⟩ := mem_akeys.mp hk
    have hlk := mem_alook_of_nodup hnd hv
    cases ht : alook translatedObject k with
    | none =>
      have hr : alook (fillMissingKeys textObject translatedObject) k = some v :=
        fillFold_adds hnd hlk ht
      apply (alook_isSome_iff_mem _ _).mp
      rw [hr]
      rfl
    | some w =>
      have hr : alook (fillMissingKeys textObject translatedObject) k = some w :=
        fillFold_preserves textObject ht
      apply (alook_isSome_iff_mem _ _).mp
      rw [hr]
      rfl
  · intro k v ht hl
    exact fillFold_adds hnd hl ht
  · intro k w ht
    exact fillFold_preserves textObject ht

/-- Witness for C8: requested `{a: "hello", b: "world"}`, response containing
only `a` — the backfilled mapping keeps the returned translation of `a` and
fills `b` with its original text. -/
theorem provider_short_response_backfill_witness :
    (akeys [("a", "hello"), ("b", "world")]).Nodup ∧
    alook (fillMissingKeys [("a", "hello"), ("b", "world")]
      [("a", "bonjour")]) "b" = some "world" ∧
    alook (fillMissingKeys [("a", "hello"), ("b", "world")]
      [("a", "bonjour")]) "a" = some "bonjour" :=
  ⟨by decide,
    (provider_short_response_backfill [("a", "hello"), ("b", "world")]
      [("a", "bonjour")] (by decide)).2.1 "b" "world" (by decide) (by decide),
    (provider_short_response_backfill [("a", "hello"), ("b", "world")]
      [("a", "bonjour")] (by decide)).2.2 "a" "bonjour" (by decide)⟩

/-! ### Field deletion by path (`src/diff.ts`) -/

/-- Parse a string as a canonical array index below the length (JavaScript
array property semantics: `"0" in arr`, `arr["0"]`; non-canonical spellings
like `"00"` are not indices). -/
def jsIndex (k : String) (n : Nat) : Option Nat :=
  match k.toNat? with
  | some i => if toString i = k ∧ i < n then some i else none
  | none => none

/-- The `lastKey in current` test of `deleteFieldByPath` on the final
container. -/
def hasProp : JSONValue → String → Bool
  | .obj l, k => (akeys l).contains k
  | .arr a, k => (jsIndex k a.length).isSome
  | _, _ => false

/-- Property lookup `current[key]` during path navigation. -/
def getProp : JSONValue → String → Option JSONValue
  | .obj l, k => alook l k
  | .arr a, k =>
    match jsIndex k a.length with
    | some i => a[i]?
    | none => none
  | _, _ => none

/-- `delete current[lastKey]`: on an object the key is removed; on an array
the slot becomes a hole, which serializes as `null`; on a primitive nothing is
deleted. -/
def deleteProp : JSONValue → String → JSONValue × Bool
  | .obj l, k =>
    if (akeys l).contains k then (.obj (aerase l k), true) else (.obj l, false)
  | .arr a, k =>
    match jsIndex k a.length with
    | some i => (.arr (a.set i .null), true)
    | none => (.arr a, false)
  | v, _ => (v, false)

/-- Write back a navigated child (the JavaScript code mutates the child in
place; the pure embedding rebuilds the parent at the same key). -/
def setProp : JSONValue → String → JSONValue → JSONValue
  | .obj l, k, c => .obj (aset l k c)
  | .arr a, k, c =>
    match jsIndex k a.length with
    | some i => .arr (a.set i c)
    | none => .arr a
  | v, _, _ => v

/-- `deleteFieldByPath` in `src/diff.ts`: navigate along the path while each
intermediate value is a truthy object (`!current[key]` rejects falsy values,
`typeof` rejects non-objects; objects and arrays are truthy, so navigation
continues exactly into object-like children), then delete the final key when
present.  Returns the updated document and whether a deletion happened; an
empty path or a broken path leaves the document unchanged and returns
`false`. -/
def deleteFieldByPath : JSONValue → List String → JSONValue × Bool
  | v, [] => (v, false)
  | v, [k] => deleteProp v k
  | v, k :: rest =>
    match getProp v k with
    | some c =>
      if isObjLike c then
        let r := deleteFieldByPath c rest
        (setProp v k r.1, r.2)
      else (v, false)
    | none => (v, false)

/-- Whether the path navigates (through truthy objects) to an existing final
key. -/
def pathPresent : JSONValue → List String → Bool
  | _, [] => false
  | v, [k] => hasProp v k
  | v, k :: rest =>
    match getProp v k with
    | some c => isObjLike c && pathPresent c rest
    | none => false

theorem jsIndex_some {k : String} {n i : Nat} (h : jsIndex k n = some i) :
    toString i = k ∧ i < n := by
  unfold jsIndex at h
  cases ht : k.toNat? with
  | none =>
    rw [ht] at h
    cases h
  | some j =>
    rw [ht] at h
    have h2 : (if toString j = k ∧ j < n then some j else none) = some i := h
    by_cases hc : toString j = k ∧ j < n
    · rw [if_pos hc] at h2
      injection h2 with h3
      subst h3
      exact hc
    · rw [if_neg hc] at h2
      cases h2

theorem getElem?_set_self {α : Type} {l : List α} {i : Nat} (a : α)
    (h : i < l.length) : (l.set i a)[i]? = some a := by
  induction l generalizing i with
  | nil => simp at h
  | cons x rest ih =>
    cases i with
    | zero => simp [List.set]
    | succ n =>
      simp only [List.set, List.getElem?_cons_succ]
      exact ih (by simpa using h)

theorem set_self_of_getElem {α : Type} {l : List α} {i : Nat} {c : α}
    (h : l[i]? = some c) : l.set i c = l := by
  induction l generalizing i with
  | nil => simp at h
  | cons x rest ih =>
    cases i with
    | zero =>
      simp only [List.getElem?_cons_zero] at h
      injection h with h2
      rw [List.set, h2]
    | succ n =>
      simp only [List.getElem?_cons_succ] at h
      rw [List.set, ih h]

theorem getProp_arr {a : List JSONValue} {k : String} {i : Nat}
    (hi : jsIndex k a.length = some i) : getProp (.arr a) k = a[i]? := by
  show (match jsIndex k a.length with
    | some i => a[i]?
    | none => none) = a[i]?
  rw [hi]

theorem getProp_arr_none {a : List JSONValue} {k : String}
    (hi : jsIndex k a.length = none) : getProp (.arr a) k = none := by
  show (match jsIndex k a.length with
    | some i => a[i]?
    | none => none) = none
  rw [hi]

theorem setProp_arr {a : List JSONValue} {k : String} {i : Nat}
    (c : JSONValue) (hi : jsIndex k a.length = some i) :
    setProp (.arr a) k c = .arr (a.set i c) := by
  show (match jsIndex k a.length with
    | some i => JSONValue.arr (a.set i c)
    | none => JSONValue.arr a) = JSONValue.arr (a.set i c)
  rw [hi]

theorem setProp_arr_none {a : List JSONValue} {k : String} (c : JSONValue)
    (hi : jsIndex k a.length = none) : setProp (.arr a) k c = .arr a := by
  show (match jsIndex k a.length with
    | some i => JSONValue.arr (a.set i c)
    | none => JSONValue.arr a) = JSONValue.arr a
  rw [hi]

theorem deleteProp_arr {a : List JSONValue} {k : String} {i : Nat}
    (hi : jsIndex k a.length = some i) :
    deleteProp (.arr a) k = (.arr (a.set i .null), true) := by
  show (match jsIndex k a.length with
    | some i => (JSONValue.arr (a.set i JSONValue.null), true)
    | none => (JSONValue.arr a, false)) = (JSONValue.arr (a.set i JSONValue.null), true)
  rw [hi]

theorem deleteProp_arr_none {a : List JSONValue} {k : String}
    (hi : jsIndex k a.length = none) : deleteProp (.arr a) k = (.arr a, false) := by
  show (match jsIndex k a.length with
    | some i => (JSONValue.arr (a.set i JSONValue.null), true)
    | none => (JSONValue.arr a, false)) = (JSONValue.arr a, false)
  rw [hi]

theorem deleteProp_obj_mem {l : List (String × JSONValue)} {k : String}
    (h : (akeys l).contains k = true) :
    deleteProp (.obj l) k = (.obj (aerase l k), true) := by
  show (if (akeys l).contains k = true then (JSONValue.obj (aerase l k), true)
    else (JSONValue.obj l, false)) = (JSONValue.obj (aerase l k), true)
  rw [if_pos h]

theorem deleteProp_obj_not_mem {l : List (String × JSONValue)} {k : String}
    (h : (akeys l).contains k = false) :
    deleteProp (.obj l) k = (.obj l, false) := by
  show (if (akeys l).contains k = true then (JSONValue.obj (aerase l k), true)
    else (JSONValue.obj l, false)) = (JSONValue.obj l, false)
  rw [if_neg (by rw [h]; exact Bool.false_ne_true)]

theorem deleteFieldByPath_cons2 (v : JSONValue) (k k2 : String) (r : List String) :
    deleteFieldByPath v (k :: k2 :: r) =
      match getProp v k with
      | some c =>
        if isObjLike c then
          (setProp v k (deleteFieldByPath c (k2 :: r)).1,
            (deleteFieldByPath c (k2 :: r)).2)
        else (v, false)
      | none => (v, false) := by
  rfl

theorem pathPresent_cons2 (v : JSONValue) (k k2 : String) (r : List String) :
    pathPresent v (k :: k2 :: r) =
      match getProp v k with
      | some c => isObjLike c && pathPresent c (k2 :: r)
      | none => false := by
  rfl

theorem deleteFieldByPath_cons_none {v : JSONValue} {k : String}
    (k2 : String) (r : List String) (hg : getProp v k = none) :
    deleteFieldByPath v (k :: k2 :: r) = (v, false) := by
  rw [deleteFieldByPath_cons2, hg]

theorem deleteFieldByPath_cons_scalar {v c : JSONValue} {k : String}
    (k2 : String) (r : List String) (hg : getProp v k = some c)
    (ho : isObjLike c = false) :
    deleteFieldByPath v (k :: k2 :: r) = (v, false) := by
  rw [deleteFieldByPath_cons2, hg]
  show (if isObjLike c = true then _ else (v, false)) = (v, false)
  rw [if_neg (by rw [ho]; exact Bool.false_ne_true)]

theorem deleteFieldByPath_cons_obj {v c : JSONValue} {k : String}
    (k2 : String) (r : List String) (hg : getProp v k = some c)
    (ho : isObjLike c = true) :
    deleteFieldByPath v (k :: k2 :: r) =
      (setProp v k (deleteFieldByPath c (k2 :: r)).1,
        (deleteFieldByPath c (k2 :: r)).2) := by
  rw [deleteFieldByPath_cons2, hg]
  show (if isObjLike c = true then
      (setProp v k (deleteFieldByPath c (k2 :: r)).1,
        (deleteFieldByPath c (k2 :: r)).2)
    else (v, false)) = _
  rw [if_pos ho]

theorem getProp_setProp {v c cn : JSONValue} {k : String}
    (h : getProp v k = some c) : getProp (setProp v k cn) k = some cn := by
  cases v with
  | obj l =>
    show alook (aset l k cn) k = some cn
    exact alook_aset_self l k cn
  | arr a =>
    cases hi : jsIndex k a.length with
    | none =>
      rw [getProp_arr_none hi] at h
      cases h
    | some i =>
      have hlt := (jsIndex_some hi).2
      have hi2 : jsIndex k (a.set i cn).length = some i := by
        rw [List.length_set]
        exact hi
      rw [setProp_arr cn hi, getProp_arr hi2]
      exact getElem?_set_self cn hlt
  | str s => simp [getProp] at h
  | num n => simp [getProp] at h
  | bool b => simp [getProp] at h
  | null => simp [getProp] at h

theorem setProp_self {v c : JSONValue} {k : String}
    (h : getProp v k = some c) : setProp v k c = v := by
  cases v with
  | obj l =>
    show JSONValue.obj (aset l k c) = JSONValue.obj l
    rw [aset_self_of_alook h]
  | arr a =>
    cases hi : jsIndex k a.length with
    | none =>
      rw [getProp_arr_none hi] at h
      cases h
    | some i =>
      rw [getProp_arr hi] at h
      rw [setProp_arr c hi, set_self_of_getElem h]
  | str s => simp [getProp] at h
  | num n => simp [getProp] at h
  | bool b => simp [getProp] at h
  | null => simp [getProp] at h

theorem setProp_setProp (v : JSONValue) (k : String) (x y : JSONValue) :
    setProp (setProp v k x) k y = setProp v k y := by
  cases v with
  | obj l =>
    show JSONValue.obj (aset (aset l k x) k y) = JSONValue.obj (aset l k y)
    rw [aset_aset]
  | arr a =>
    cases hi : jsIndex k a.length with
    | none => rw [setProp_arr_none x hi, setProp_arr_none y hi]
    | some i =>
      have hi2 : jsIndex k (a.set i x).length = some i := by
        rw [List.length_set]
        exact hi
      rw [setProp_arr x hi, setProp_arr y hi2, List.set_set, setProp_arr y hi]
  | str s => rfl
  | num n => rfl
  | bool b => rfl
  | null => rfl

theorem deleteProp_isObjLike (v : JSONValue) (k : String) :
    isObjLike (deleteProp v k).1 = isObjLike v := by
  cases v with
  | obj l =>
    by_cases h : (akeys l).contains k = true
    · rw [deleteProp_obj_mem h]
      rfl
    · rw [deleteProp_obj_not_mem (by simpa using h)]
  | arr a =>
    cases hi : jsIndex k a.length with
    | some i =>
      rw [deleteProp_arr hi]
      rfl
    | none => rw [deleteProp_arr_none hi]
  | str s => rfl
  | num n => rfl
  | bool b => rfl
  | null => rfl

theorem setProp_isObjLike (v : JSONValue) (k : String) (c : JSONValue) :
    isObjLike (setProp v k c) = isObjLike v := by
  cases v with
  | obj l => rfl
  | arr a =>
    cases hi : jsIndex k a.length with
    | some i =>
      rw [setProp_arr c hi]
      rfl
    | none => rw [setProp_arr_none c hi]
  | str s => rfl
  | num n => rfl
  | bool b => rfl
  | null => rfl

theorem deleteFieldByPath_shape : ∀ (v : JSONValue) (p : List String),
    isObjLike (deleteFieldByPath v p).1 = isObjLike v
  | _, [] => rfl
  | v, [k] => deleteProp_isObjLike v k
  | v, k :: k2 :: r => by
    cases hg : getProp v k with
    | none => rw [deleteFieldByPath_cons_none k2 r hg]
    | some c =>
      by_cases ho : isObjLike c = true
      · rw [deleteFieldByPath_cons_obj k2 r hg ho]
        exact setProp_isObjLike v k _
      · rw [deleteFieldByPath_cons_scalar k2 r hg (by simpa using ho)]

theorem deleteFieldByPath_absent : ∀ (v : JSONValue) (p : List String),
    pathPresent v p = false → deleteFieldByPath v p = (v, false)
  | _, [], _ => rfl
  | v, [k], h => by
    cases v with
    | obj l =>
      simp only [pathPresent, hasProp] at h
      exact deleteProp_obj_not_mem h
    | arr a =>
      simp only [pathPresent, hasProp] at h
      cases hi : jsIndex k a.length with
      | some i =>
        rw [hi] at h
        cases h
      | none => exact deleteProp_arr_none hi
    | str s => rfl
    | num n => rfl
    | bool b => rfl
    | null => rfl
  | v, k :: k2 :: r, h => by
    rw [pathPresent_cons2] at h
    cases hg : getProp v k with
    | none => exact deleteFieldByPath_cons_none k2 r hg
    | some c =>
      rw [hg] at h
      have h2 : (isObjLike c && pathPresent c (k2 :: r)) = false := h
      by_cases ho : isObjLike c = true
      · rw [ho, Bool.true_and] at h2
        rw [deleteFieldByPath_cons_obj k2 r hg ho,
          deleteFieldByPath_absent c (k2 :: r) h2]
        show (setProp v k c, false) = (v, false)
        rw [setProp_self hg]
      · exact deleteFieldByPath_cons_scalar k2 r hg (by simpa using ho)

theorem contains_eq_false_of_not_mem {l : List String} {k : String}
    (h : k ∉ l) : l.contains k = false := by
  cases hc : l.contains k
  · rfl
  · exact absurd (by simpa using hc) h

theorem deleteFieldByPath_idem : ∀ (v : JSONValue) (p : List String),
    (deleteFieldByPath (deleteFieldByPath v p).1 p).1 = (deleteFieldByPath v p).1
  | _, [] => rfl
  | v, [k] => by
    cases v with
    | obj l =>
      by_cases h : (akeys l).contains k = true
      · show (deleteFieldByPath (deleteProp (JSONValue.obj l) k).1 [k]).1 =
          (deleteProp (JSONValue.obj l) k).1
        rw [deleteProp_obj_mem h]
        show (deleteProp (JSONValue.obj (aerase l k)) k).1 =
          JSONValue.obj (aerase l k)
        rw [deleteProp_obj_not_mem
          (contains_eq_false_of_not_mem (aerase_not_mem l k))]
      · have hf : (akeys l).contains k = false := by simpa using h
        show (deleteFieldByPath (deleteProp (JSONValue.obj l) k).1 [k]).1 =
          (deleteProp (JSONValue.obj l) k).1
        rw [deleteProp_obj_not_mem hf]
        show (deleteProp (JSONValue.obj l) k).1 = JSONValue.obj l
        rw [deleteProp_obj_not_mem hf]
    | arr a =>
      cases hi : jsIndex k a.length with
      | some i =>
        show (deleteFieldByPath (deleteProp (JSONValue.arr a) k).1 [k]).1 =
          (deleteProp (JSONValue.arr a) k).1
        rw [deleteProp_arr hi]
        show (deleteProp (JSONValue.arr (a.set i .null)) k).1 =
          JSONValue.arr (a.set i .null)
        have hi2 : jsIndex k (a.set i JSONValue.null).length = some i := by
          rw [List.length_set]
          exact hi
        rw [deleteProp_arr hi2]
        show JSONValue.arr ((a.set i JSONValue.null).set i JSONValue.null) =
          JSONValue.arr (a.set i JSONValue.null)
        rw [List.set_set]
      | none =>
        show (deleteFieldByPath (deleteProp (JSONValue.arr a) k).1 [k]).1 =
          (deleteProp (JSONValue.arr a) k).1
        rw [deleteProp_arr_none hi]
        show (deleteProp (JSONValue.arr a) k).1 = JSONValue.arr a
        rw [deleteProp_arr_none hi]
    | str s => rfl
    | num n => rfl
    | bool b => rfl
    | null => rfl
  | v, k :: k2 :: r => by
    cases hg : getProp v k with
    | none =>
      rw [deleteFieldByPath_cons_none k2 r hg]
      show (deleteFieldByPath v (k :: k2 :: r)).1 = v
      rw [deleteFieldByPath_cons_none k2 r hg]
    | some c =>
      by_cases ho : isObjLike c = true
      · have hrec := deleteFieldByPath_idem c (k2 :: r)
        have hg2 : getProp (setProp v k (deleteFieldByPath c (k2 :: r)).1) k =
            some (deleteFieldByPath c (k2 :: r)).1 := getProp_setProp hg
        have ho2 : isObjLike (deleteFieldByPath c (k2 :: r)).1 = true := by
          rw [deleteFieldByPath_shape c (k2 :: r)]
          exact ho
        rw [deleteFieldByPath_cons_obj k2 r hg ho]
        show (deleteFieldByPath (setProp v k (deleteFieldByPath c (k2 :: r)).1)
            (k :: k2 :: r)).1 =
          setProp v k (deleteFieldByPath c (k2 :: r)).1
        rw [deleteFieldByPath_cons_obj k2 r hg2 ho2]
        show setProp (setProp v k (deleteFieldByPath c (k2 :: r)).1) k
            (deleteFieldByPath (deleteFieldByPath c (k2 :: r)).1 (k2 :: r)).1 =
          setProp v k (deleteFieldByPath c (k2 :: r)).1
        rw [hrec, setProp_setProp]
      · have ho' : isObjLike c = false := by simpa using ho
        rw [deleteFieldByPath_cons_scalar k2 r hg ho']
        show (deleteFieldByPath v (k :: k2 :: r)).1 = v
        rw [deleteFieldByPath_cons_scalar k2 r hg ho']

/-- C9: deleting a key path whose final key is absent from the catalog is a
no-op that returns failure and leaves the catalog unchanged, and deletion is
idempotent: applying the same deletion twice yields the same catalog as
applying it once. -/
theorem delete_absent_noop_and_idempotent (v : JSONValue) (p : List String) :
    (pathPresent v p = false → deleteFieldByPath v p = (v, false)) ∧
    (deleteFieldByPath (deleteFieldByPath v p).1 p).1 = (deleteFieldByPath v p).1 :=
  ⟨deleteFieldByPath_absent v p, deleteFieldByPath_idem v p⟩

/-- Witness for C9: deleting the absent path `a.y` from
`{"a": {"x": "1"}}` fails and leaves the catalog unchanged; the idempotence
holds at the same input. -/
theorem delete_absent_noop_and_idempotent_witness :
    pathPresent (JSONValue.obj [("a", JSONValue.obj [("x", JSONValue.str "1")])])
      ["a", "y"] = false ∧
    deleteFieldByPath (JSONValue.obj [("a", JSONValue.obj [("x", JSONValue.str "1")])])
      ["a", "y"] =
      (JSONValue.obj [("a", JSONValue.obj [("x", JSONValue.str "1")])], false) :=
  ⟨by decide,
    (delete_absent_noop_and_idempotent
      (JSONValue.obj [("a", JSONValue.obj [("x", JSONValue.str "1")])])
      ["a", "y"]).1 (by decide)⟩

end AITranslator
